import Mathlib

/-!
Verification of the rusty-chromaprint audio fingerprinting library.

Each Rust component is shallowly embedded as executable Lean definitions:
`f64` values become `ℚ` (exact arithmetic), machine integers become `Nat`/`Int`
with explicit wrap-arounds where the machine width matters, and stateful
stages become explicit state-passing functions.
-/

namespace Quantize

/-- The three thresholds of `Quantizer` (quantize.rs). -/
structure Quantizer where
  t0 : ℚ
  t1 : ℚ
  t2 : ℚ

/-- `Quantizer::quantize` from quantize.rs: nested comparisons mapping a
scalar to `{0,1,2,3}`. -/
def quantize (q : Quantizer) (val : ℚ) : Nat :=
  if val < q.t1 then
    if val < q.t0 then 0 else 1
  else
    if val < q.t2 then 2 else 3

end Quantize

namespace Matcher

/-- Error type of `match_fingerprints` (fingerprint_matcher.rs). -/
inductive MatchError where
  | fingerprintTooLong (index : Nat)
  deriving DecidableEq, Repr

def ALIGN_BITS : Nat := 12

/-- `OFFSET_MASK = (1 << (32 - ALIGN_BITS - 1)) - 1` from fingerprint_matcher.rs. -/
def OFFSET_MASK : Nat := (1 <<< (32 - ALIGN_BITS - 1)) - 1

/-- The input-length guard at the top of `match_fingerprints`
(fingerprint_matcher.rs lines 35–41); the rest of the function
unconditionally returns `Ok`. -/
def lengthGuard (fp1 fp2 : List Nat) : Except MatchError Unit :=
  if fp1.length + 1 ≥ OFFSET_MASK then
    Except.error (MatchError.fingerprintTooLong 0)
  else if fp2.length + 1 ≥ OFFSET_MASK then
    Except.error (MatchError.fingerprintTooLong 1)
  else
    Except.ok ()

end Matcher

namespace AudioProcessor

/-- The running values of the accumulator in
`sample.iter().copied().map(i32::from).sum::<i32>()` in the multi-channel
branch of `AudioProcessor::load` (audio_processor.rs), starting from `acc`. -/
def runningSums (acc : Int) : List Int → List Int
  | [] => [acc]
  | x :: xs => acc :: runningSums (acc + x) xs

/-- The final value of the accumulation. -/
def frameSum (frame : List Int) : Int := frame.foldl (fun acc x => acc + x) 0

/-- `sum / samples` with Rust `i32` division (truncation toward zero),
from the multi-channel branch of `AudioProcessor::load`. -/
def multiChannelAverage (frame : List Int) : Int :=
  Int.tdiv (frameSum frame) (frame.length : Int)

end AudioProcessor

namespace Fft

/-- State of the `Fft` stage (fft.rs), with the consumer modelled as a
collector of the emitted frames.  The numeric content of one frame is
abstracted by a parameter `binPower`, standing for
`fft_buffer_complex[i].norm_sqr()` after windowing and the in-place FFT of
the first `frame_size` buffered samples; the claim under study concerns
only the shape of the emitted slices. -/
structure FftState where
  frameSize : Nat
  frameOverlap : Nat
  ringBuf : List ℚ
  fftFrame : List ℚ
  frames : List (List ℚ)

/-- `Fft::new`: `fft_frame` is allocated with `1 + frame_size / 2` zeros. -/
def fftNew (frameSize frameOverlap : Nat) : FftState :=
  { frameSize := frameSize
    frameOverlap := frameOverlap
    ringBuf := []
    fftFrame := List.replicate (1 + frameSize / 2) 0
    frames := [] }

/-- One iteration of the `while` loop in `Fft::consume`: write
`fft_frame[i]` for `i < frame_size / 2` (the tail of `fft_frame` is left
untouched), pass the whole `fft_frame` to the consumer, and drain
`frame_size - frame_overlap` samples. -/
def fftStep (binPower : List ℚ → Nat → ℚ) (st : FftState) : FftState :=
  let window := st.ringBuf.take st.frameSize
  let newFrame :=
    (List.range (st.frameSize / 2)).map (binPower window) ++
      st.fftFrame.drop (st.frameSize / 2)
  { st with
    fftFrame := newFrame
    frames := st.frames ++ [newFrame]
    ringBuf := st.ringBuf.drop (st.frameSize - st.frameOverlap) }

/-- The `while self.ring_buf.len() >= self.frame_size` loop of
`Fft::consume`.  The extra conjunct `frameOverlap < frameSize` only cuts
off the configurations on which the source loop never terminates. -/
def fftLoop (binPower : List ℚ → Nat → ℚ) (st : FftState) : FftState :=
  if h : st.frameSize ≤ st.ringBuf.length ∧ st.frameOverlap < st.frameSize then
    fftLoop binPower (fftStep binPower st)
  else
    st
termination_by st.ringBuf.length
decreasing_by
  simp only [fftStep, List.length_drop]
  omega

/-- `Fft::consume`: extend the ring buffer, then run the frame loop. -/
def fftConsume (binPower : List ℚ → Nat → ℚ) (st : FftState) (data : List ℚ) : FftState :=
  fftLoop binPower { st with ringBuf := st.ringBuf ++ data }

/-- The loop invariant for the shape claim: the stage parameters are
fixed, `fft_frame` keeps its allocated length, and every frame handed to
the consumer has that same length. -/
def ShapeInv (fs ov : Nat) (st : FftState) : Prop :=
  st.frameSize = fs ∧ st.frameOverlap = ov ∧
  st.fftFrame.length = fs / 2 + 1 ∧
  st.frames.all (fun f => f.length == fs / 2 + 1) = true

end Fft

namespace Chroma

def NUM_BANDS : Nat := 12

/-- Parameters of the `Chroma` stage (chroma.rs) that `consume` reads:
the interpolation flag and the tables prepared by `prepare_notes`. -/
structure ChromaState where
  interpolate : Bool
  notes : Nat → Nat
  notesFrac : Nat → ℚ
  minIndex : Nat
  maxIndex : Nat

/-- `features[idx] += v`. -/
def addEnergy (features : Nat → ℚ) (idx : Nat) (v : ℚ) : Nat → ℚ :=
  fun k => if k = idx then features k + v else features k

/-- The body of the bin loop in `Chroma::consume` for bin `i` carrying
`energy = frame[i]`. -/
def consumeBin (st : ChromaState) (features : Nat → ℚ) (i : Nat) (energy : ℚ) :
    Nat → ℚ :=
  let note := st.notes i
  if st.interpolate then
    -- `(note2, a)` starts as `(note, 1.0)` and is overwritten by the two
    -- `if` statements; the conditions are mutually exclusive.
    let na1 : Nat × ℚ :=
      if st.notesFrac i < 1/2 then
        ((note + NUM_BANDS - 1) % NUM_BANDS, 1/2 + st.notesFrac i)
      else (note, 1)
    let na2 : Nat × ℚ :=
      if st.notesFrac i > 1/2 then
        ((note + 1) % NUM_BANDS, 3/2 - st.notesFrac i)
      else na1
    addEnergy (addEnergy features note (energy * na2.2)) na2.1 (energy * (1 - na2.2))
  else
    addEnergy features note energy

/-- `Chroma::consume`: zero the 12 features, then loop over the bins
`min_index ≤ i < min(max_index, frame.len())` (the iterator
`frame.iter().enumerate().take(max_index).skip(min_index)`). -/
def chromaConsume (st : ChromaState) (frame : List ℚ) : Nat → ℚ :=
  ((List.range (min st.maxIndex frame.length)).drop st.minIndex).foldl
    (fun feats i => consumeBin st feats i (frame.getD i 0)) (fun _ => 0)

/-- Sum of the 12 chroma features. -/
def sumFeatures (features : Nat → ℚ) : ℚ :=
  ((List.range NUM_BANDS).map features).sum

end Chroma

namespace ChromaFilter

/-- Length of the circular buffer of past chroma vectors
(`buffer: [[f64; 12]; 8]` in chroma_filter.rs). -/
def BUFFER_LEN : Nat := 8

/-- State of `ChromaFilter` (chroma_filter.rs).  A chroma vector is a
function from band index to value; the buffer maps a slot index to a
stored vector. -/
structure FilterState where
  coefficients : List ℚ
  buffer : Nat → Nat → ℚ
  bufferOffset : Nat
  bufferSize : Nat

/-- `ChromaFilter::new`: zeroed buffer, `buffer_offset = 0`,
`buffer_size = 1`. -/
def filterNew (coefficients : List ℚ) : FilterState :=
  { coefficients := coefficients
    buffer := fun _ _ => 0
    bufferOffset := 0
    bufferSize := 1 }

/-- `ChromaFilter::reset`: only the counters are reset; the buffer
contents are kept. -/
def filterReset (st : FilterState) : FilterState :=
  { st with bufferSize := 1, bufferOffset := 0 }

/-- `ChromaFilter::consume`: store the incoming vector, advance the
offset modulo 8, and — once `buffer_size` has reached the coefficient
count — emit the FIR combination of the last `coefficients.len()` stored
vectors. -/
def filterConsume (st : FilterState) (features : Nat → ℚ) :
    FilterState × Option (Nat → ℚ) :=
  let buffer := fun r => if r = st.bufferOffset then features else st.buffer r
  let bufferOffset := (st.bufferOffset + 1) % BUFFER_LEN
  if st.coefficients.length ≤ st.bufferSize then
    let offset := (bufferOffset + BUFFER_LEN - st.coefficients.length) % BUFFER_LEN
    let result := fun i =>
      (List.range st.coefficients.length).foldl
        (fun acc j => acc + buffer ((offset + j) % BUFFER_LEN) i * st.coefficients.getD j 0) 0
    ({ st with buffer := buffer, bufferOffset := bufferOffset }, some result)
  else
    ({ st with
        buffer := buffer
        bufferOffset := bufferOffset
        bufferSize := st.bufferSize + 1 }, none)

/-- Feed a list of chroma vectors through the filter, collecting the
vectors passed to the consumer. -/
def filterRun (st : FilterState) : List (Nat → ℚ) → FilterState × List (Nat → ℚ)
  | [] => (st, [])
  | x :: xs =>
    let so := filterConsume st x
    let rest := filterRun so.1 xs
    (rest.1, match so.2 with
      | some y => y :: rest.2
      | none => rest.2)

/-- The expected FIR output for the window of `coefficients.len()`
consecutive inputs starting at `m` (0-based):
`y[i] = Σ_j x[m+j][i] · c[j]`. -/
def convAt (c : List ℚ) (xs : List (Nat → ℚ)) (m : Nat) : Nat → ℚ :=
  fun i => ((List.range c.length).map
    (fun j => (xs.getD (m + j) (fun _ => 0)) i * c.getD j 0)).sum

/-- All expected outputs for an input sequence: one vector per complete
window, i.e. nothing for the first `K - 1` inputs and one output per
input from the `K`-th on. -/
def convOutputs (c : List ℚ) (xs : List (Nat → ℚ)) : List (Nat → ℚ) :=
  (List.range (xs.length + 1 - c.length)).map (convAt c xs)

/-- Relation between a filter state and the list of vectors it has
consumed since it was (re)started: the counters track the consumed count
and the buffer holds the last eight consumed vectors. -/
def RunInv (c : List ℚ) (past : List (Nat → ℚ)) (st : FilterState) : Prop :=
  st.coefficients = c ∧
  st.bufferOffset = past.length % BUFFER_LEN ∧
  st.bufferSize = min (past.length + 1) c.length ∧
  ∀ s, s < past.length → past.length ≤ s + BUFFER_LEN →
    st.buffer (s % BUFFER_LEN) = past.getD s (fun _ => 0)

end ChromaFilter

namespace Compression

def NORMAL_BITS : Nat := 3

/-- `MAX_NORMAL_VALUE = (1 << NORMAL_BITS) - 1` from compression.rs. -/
def MAX_NORMAL_VALUE : Nat := (1 <<< NORMAL_BITS) - 1

/-- The 1-based positions of the set bits of a `u32`, from the LSB: the
`into_bit_iter().enumerate().filter_map(..)` part of
`compress_subfingerprint`. -/
def setBitPositions (x : Nat) : List Nat :=
  (List.range 32).filterMap (fun i => if x.testBit i then some (i + 1) else none)

/-- The `scan` of `compress_subfingerprint`: difference of consecutive
set-bit positions, with values `≥ MAX_NORMAL_VALUE` split into the
normal part `7` and an exceptional part. -/
def gapsFrom (last : Nat) : List Nat → List (Nat × Option Nat)
  | [] => []
  | p :: ps =>
    (if p - last ≥ MAX_NORMAL_VALUE then
      (MAX_NORMAL_VALUE, some (p - last - MAX_NORMAL_VALUE))
    else
      (p - last, none)) :: gapsFrom p ps

/-- `FingerprintCompressor::compress_subfingerprint`, including the
terminating `(0, None)`. -/
def compressSubfingerprint (x : Nat) : List (Nat × Option Nat) :=
  gapsFrom 0 (setBitPositions x) ++ [(0, none)]

/-- The XOR-delta `scan` at the start of `FingerprintCompressor::compress`. -/
def xorDeltas (last : Nat) : List Nat → List Nat
  | [] => []
  | x :: xs => (x ^^^ last) :: xorDeltas x xs

/-- `packed_intn_array_len`. -/
def packedIntnArrayLen (arrayLen n : Nat) : Nat := (arrayLen * n + 7) / 8

/-- The loop body of `iter_packed_intn_array`'s inner fold, written as a
recursion over the chunk with the running `enumerate` index `i` and the
`(size, result)` accumulator. -/
def packChunkGo (n mask : Nat) : Nat → List Nat → Nat → List Nat → Nat × List Nat
  | _, result, size, [] => (size, result)
  | i, result, _, b :: rest =>
    let bits := b &&& mask
    let rightmostBitIndex := i * n
    let leftmostBitIndex := rightmostBitIndex + n - 1
    let rightByte := rightmostBitIndex / 8
    let leftByte := leftmostBitIndex / 8
    let result := result.set rightByte
      ((result.getD rightByte 0) ||| ((bits <<< (rightmostBitIndex % 8)) % 256))
    let result := if leftByte ≠ rightByte then
        result.set leftByte
          ((result.getD leftByte 0) ||| (bits >>> ((8 - rightmostBitIndex % 8) % 8)))
      else result
    packChunkGo n mask (i + 1) result (leftByte + 1) rest

/-- One chunk of `iter_packed_intn_array`: fold into an `N`-byte array,
then keep the first `size` bytes. -/
def packChunk (n : Nat) (chunk : List Nat) : List Nat :=
  let mask := ((0xFF <<< (8 - n)) % 256) >>> (8 - n)
  let sr := packChunkGo n mask 0 (List.replicate n 0) 0 chunk
  sr.2.take sr.1

/-- `slice.chunks(8)`. -/
def chunks8 : List Nat → List (List Nat)
  | [] => []
  | x :: xs => ((x :: xs).take 8) :: chunks8 ((x :: xs).drop 8)
termination_by l => l.length
decreasing_by
  simp only [List.length_drop, List.length_cons]
  omega

/-- `iter_packed_intn_array`. -/
def iterPackedIntnArray (n : Nat) (array : List Nat) : List Nat :=
  (chunks8 array).flatMap (packChunk n)

/-- `FingerprintCompressor::compress`; `algorithmId` stands for the
configuration's `id()` byte written into the header. -/
def compress (algorithmId : Nat) (fingerprint : List Nat) : List Nat :=
  let size := fingerprint.length
  let pairs := (xorDeltas 0 fingerprint).flatMap compressSubfingerprint
  let normalBits := pairs.map Prod.fst
  let exceptionalBits := pairs.filterMap Prod.snd
  [algorithmId, (size >>> 16) &&& 0xFF, (size >>> 8) &&& 0xFF, size &&& 0xFF]
    ++ iterPackedIntnArray 3 normalBits ++ iterPackedIntnArray 5 exceptionalBits

/-- Bit `t` of the packed little-endian-within-byte bit stream. -/
def streamBit (bytes : List Nat) (t : Nat) : Bool :=
  (bytes.getD (t / 8) 0).testBit (t % 8)

/-- Modelled from the spec: the repository has no decompressor, so the
unpacking of an `Int<N>` stream follows §4.9 of the format description:
bit `b` of value `i` is bit `(i·N + b) mod 8` of byte `(i·N + b) / 8`. -/
def unpackIntN (n : Nat) (bytes : List Nat) : List Nat :=
  (List.range (bytes.length * 8 / n)).map (fun i =>
    ((List.range n).map (fun b => if streamBit bytes (n * i + b) then 2 ^ b else 0)).sum)

/-- Modelled from the spec: scan the unpacked normal values until the
`size`-th terminating zero, returning how many values the normal stream
holds (`none` when the stream is truncated). -/
def findNormalEnd : List Nat → Nat → Option Nat
  | _, 0 => some 0
  | [], _ + 1 => none
  | v :: vs, k + 1 => (findNormalEnd vs (if v = 0 then k else k + 1)).map (· + 1)

/-- Modelled from the spec: decode one sub-fingerprint's gap sequence.
`pos` is the last set-bit position, `acc` the bits recovered so far; a
normal value `0` terminates the group, a normal value `7` pulls an
exceptional value `e` and stands for the gap `7 + e`.  Returns the decoded
word together with the unconsumed normal and exceptional values. -/
def decodeOne (pos acc : Nat) : List Nat → List Nat → Option (Nat × List Nat × List Nat)
  | [], _ => none
  | g :: gs, excs =>
    if g = 0 then
      some (acc, gs, excs)
    else if g = MAX_NORMAL_VALUE then
      match excs with
      | [] => none
      | e :: es =>
        decodeOne (pos + g + e) (acc + 2 ^ (pos + g + e - 1)) gs es
    else
      decodeOne (pos + g) (acc + 2 ^ (pos + g - 1)) gs excs

/-- Modelled from the spec: decode `count` zero-terminated groups into
XOR-deltas. -/
def decodeDeltas : Nat → List Nat → List Nat → Option (List Nat)
  | 0, _, _ => some []
  | count + 1, ns, es =>
    (decodeOne 0 0 ns es).bind (fun r =>
      (decodeDeltas count r.2.1 r.2.2).map (fun ds => r.1 :: ds))

/-- Undo the XOR-delta scan. -/
def unXor (last : Nat) : List Nat → List Nat
  | [] => []
  | d :: ds => (d ^^^ last) :: unXor (d ^^^ last) ds

/-- Modelled from the spec: the decompressor (`decompress(&[u8]) →
(config_id, Vec<u32>)`), which the repository does not implement.  It
parses the 4-byte header (algorithm id and 24-bit big-endian count),
unpacks the 3-bit normal stream, locates its end by counting the `size`
group terminators, unpacks the 5-bit exceptional stream that follows the
normal stream's bytes, decodes the gap groups and undoes the XOR deltas. -/
def decompress (bytes : List Nat) : Option (Nat × List Nat) :=
  match bytes with
  | algo :: s1 :: s2 :: s3 :: rest =>
    let size := (s1 <<< 16) + (s2 <<< 8) + s3
    let vals := unpackIntN 3 rest
    (findNormalEnd vals size).bind (fun nN =>
      let normals := vals.take nN
      let excBytes := rest.drop (packedIntnArrayLen nN 3)
      let excs := unpackIntN 5 excBytes
      (decodeDeltas size normals excs).map (fun ds => (algo, unXor 0 ds)))
  | _ => none

/-- The XOR-deltas as the spec words them: `d[0] = fp[0]`,
`d[i] = fp[i] XOR fp[i−1]`. -/
def specDeltas (fp : List Nat) : List Nat := List.zipWith (· ^^^ ·) fp (0 :: fp)

/-- The gap sequence of one delta as the spec words it: differences of
consecutive 1-based set-bit positions (the first relative to 0), then a
terminating 0. -/
def specGaps (d : Nat) : List Nat :=
  (List.zipWith (· - ·) (setBitPositions d) (0 :: setBitPositions d)) ++ [0]

/-- Encoding of one gap as the spec words it: `g < 7` is a normal value;
`g ≥ 7` is the normal value 7 plus the exceptional value `g − 7`. -/
def specEncodeGap (g : Nat) : Nat × Option Nat :=
  if g < 7 then (g, none) else (7, some (g - 7))

/-- The per-gap stream of the whole fingerprint, per the spec. -/
def specPairs (fp : List Nat) : List (Nat × Option Nat) :=
  (specDeltas fp).flatMap (fun d => (specGaps d).map specEncodeGap)

/-- The normal stream, per the spec. -/
def specNormalStream (fp : List Nat) : List Nat := (specPairs fp).map Prod.fst

/-- The exceptional stream, per the spec. -/
def specExceptionalStream (fp : List Nat) : List Nat :=
  (specPairs fp).filterMap Prod.snd

/-- The compressed byte stream as the spec words it: 4-byte header with the
24-bit big-endian count, then the packed normal and exceptional streams. -/
def specCompressed (algorithmId : Nat) (fp : List Nat) : List Nat :=
  [algorithmId, fp.length / 2 ^ 16 % 2 ^ 8, fp.length / 2 ^ 8 % 2 ^ 8, fp.length % 2 ^ 8]
    ++ iterPackedIntnArray 3 (specNormalStream fp)
    ++ iterPackedIntnArray 5 (specExceptionalStream fp)

/-- Value `i` of the `Int<n>` stream packed into a chunk, as a reference for
`packChunkGo`: the `i`-th masked element. -/
def chunkW (n mask i : Nat) : List Nat → Nat
  | [] => 0
  | b :: rest => (b &&& mask) * 2 ^ (n * i) + chunkW n mask (i + 1) rest

end Compression

namespace RollingImage

/-- `RollingIntegralImage` from rolling_image.rs: `data` is the flat
`max_rows * columns` buffer as a total function (unwritten cells are 0,
as after `resize`). -/
structure RollState where
  maxRows : Nat
  columns : Nat
  rows : Nat
  data : Nat → ℚ

/-- `RollingIntegralImage::new`: note the stored `max_rows` is the
argument plus one. -/
def rollingNew (maxRows : Nat) : RollState :=
  { maxRows := maxRows + 1
    columns := 0
    rows := 0
    data := fun _ => 0 }

/-- `RollingIntegralImage::add_row`: first pass writes the running sum of
the new row into slot `rows % max_rows`; the second pass (when `rows > 0`)
adds the previously stored row `rows - 1`, reading from the state left by
the first pass (faithful to the in-place aliasing when
`max_rows = 1`). -/
def addRow (st : RollState) (row : List ℚ) : RollState :=
  let columns := if st.columns = 0 then row.length else st.columns
  let base := (st.rows % st.maxRows) * columns
  let d1 : Nat → ℚ := fun j =>
    if base ≤ j ∧ j < base + columns then (row.take (j - base + 1)).sum else st.data j
  let d2 : Nat → ℚ :=
    if 0 < st.rows then
      fun j =>
        if base ≤ j ∧ j < base + columns then
          d1 j + d1 ((st.rows - 1) % st.maxRows * columns + (j - base))
        else d1 j
    else d1
  { maxRows := st.maxRows
    columns := columns
    rows := st.rows + 1
    data := d2 }

/-- `<RollingIntegralImage as Image>::area`, with the stored row `r`
looked up at flat offset `(r % max_rows) * columns`. -/
def area (st : RollState) (r1 c1 r2 c2 : Nat) : ℚ :=
  if r1 = r2 ∨ c1 = c2 then 0
  else if r1 = 0 then
    if c1 = 0 then st.data ((r2 - 1) % st.maxRows * st.columns + (c2 - 1))
    else st.data ((r2 - 1) % st.maxRows * st.columns + (c2 - 1))
      - st.data ((r2 - 1) % st.maxRows * st.columns + (c1 - 1))
  else
    if c1 = 0 then st.data ((r2 - 1) % st.maxRows * st.columns + (c2 - 1))
      - st.data ((r1 - 1) % st.maxRows * st.columns + (c2 - 1))
    else st.data ((r2 - 1) % st.maxRows * st.columns + (c2 - 1))
      - st.data ((r1 - 1) % st.maxRows * st.columns + (c2 - 1))
      - st.data ((r2 - 1) % st.maxRows * st.columns + (c1 - 1))
      + st.data ((r1 - 1) % st.maxRows * st.columns + (c1 - 1))

/-- Feeding a sequence of rows through `add_row`. -/
def rollingRun (st : RollState) (rows : List (List ℚ)) : RollState :=
  rows.foldl addRow st

/-- Sum of the cells `[c1..c2)` of one raw row. -/
def rowSlice (row : List ℚ) (c1 c2 : Nat) : ℚ := ((row.take c2).drop c1).sum

/-- Sum of the raw input cells over `[r1..r2) × [c1..c2)`. -/
def rectSum (rs : List (List ℚ)) (r1 c1 r2 c2 : Nat) : ℚ :=
  (((rs.take r2).drop r1).map (fun row => rowSlice row c1 c2)).sum

end RollingImage

namespace AudioProcessor

/-- `MAX_BUFFER_SIZE` from audio_processor.rs. -/
def MAX_BUFFER_SIZE : Nat := 1024 * 32

/-- One mixed-down sample per frame, following the `match channels` arms of
`AudioProcessor::load`: mono passes through, stereo averages the pair with
truncating `i32` division, and the general arm divides the frame sum by the
channel count (truncating toward zero). -/
def mixFrame (c : Nat) (frame : List Int) : Int :=
  match c with
  | 1 => frame.getD 0 0
  | 2 => Int.tdiv (frame.getD 0 0 + frame.getD 1 0) 2
  | _ => Int.tdiv (frame.foldl (· + ·) 0) (frame.length : Int)

/-- `slice.chunks_exact(c)`. -/
def chunksExact (c : Nat) (l : List Int) : List (List Int) :=
  if h : c ≠ 0 ∧ c ≤ l.length then l.take c :: chunksExact c (l.drop c) else []
termination_by l.length
decreasing_by
  rw [List.length_drop]
  omega

/-- The mixed-down mono stream produced by `load` for whole-frame input. -/
def mixStream (c : Nat) (data : List Int) : List Int :=
  (chunksExact c data).map (mixFrame c)

/-- An abstract fixed-input resampler standing for `rubato::SincFixedIn`:
`requiredInput` is `input_frames_next()` and `process` maps a block of
exactly that many input samples to output samples plus a new internal
state. -/
structure Resampler (ρ : Type) where
  requiredInput : ρ → Nat
  process : ρ → List ℚ → ρ × List ℚ

/-- The `AudioProcessor` state: the pending `i16` slab (`buffer` up to
`buffer_offset`), the pending resampler input, the abstract resampler
state and the concatenation of everything handed to the consumer. -/
structure ApState (ρ : Type) where
  buffer : List Int
  input : List ℚ
  rstate : ρ
  out : List ℚ

/-- Fresh state (`AudioProcessor::new` + `reset`). -/
def apNew (r0 : ρ) : ApState ρ :=
  { buffer := [], input := [], rstate := r0, out := [] }

/-- The `while self.input.len() >= required_input` loop of `resample`:
process one block, drain it from the input, append the output.  The
`R ≠ 0` guard only rules out the diverging degenerate resampler. -/
def drainLoop (res : Resampler ρ) (R : Nat) (rstate : ρ) (input out : List ℚ) :
    ρ × List ℚ × List ℚ :=
  if h : R ≠ 0 ∧ R ≤ input.length then
    let pr := res.process rstate (input.take R)
    drainLoop res R pr.1 (input.drop R) (out ++ pr.2)
  else (rstate, input, out)
termination_by input.length
decreasing_by
  rw [List.length_drop]
  omega

/-- `AudioProcessor::resample`: move the slab into `input` (scaled by
`i16::MAX`), then either pass `input` straight to the consumer (no
resampler) or run the drain loop, zero-padding first when flushing. -/
def resampleF (P : Option (Resampler ρ)) (flushPad : Bool) (st : ApState ρ) : ApState ρ :=
  let input := st.input ++ st.buffer.map (fun s => (s : ℚ) / 32767)
  match P with
  | none =>
    { st with buffer := [], input := [], out := st.out ++ input }
  | some res =>
    let R := res.requiredInput st.rstate
    let input := if input.length < R ∧ flushPad then
        input ++ List.replicate (R - input.length) 0
      else input
    let dr := drainLoop res R st.rstate input []
    { st with buffer := [], input := dr.2.1, rstate := dr.1, out := st.out ++ dr.2.2 }

/-- Pushing one mixed sample: `push_sample` followed by the full-buffer
check of `consume`. -/
def stepSample (P : Option (Resampler ρ)) (st : ApState ρ) (s : Int) : ApState ρ :=
  let st1 : ApState ρ := { st with buffer := st.buffer ++ [s] }
  if st1.buffer.length = MAX_BUFFER_SIZE then resampleF P false st1 else st1

/-- `<AudioProcessor as AudioConsumer>::consume`: repeatedly `load` as many
whole frames as fit in the slab, resampling whenever the slab fills.  The
`consumed = 0` escape hatch is unreachable for whole-frame input with a
non-full slab; it only makes the recursion total. -/
def apConsume (P : Option (Resampler ρ)) (c : Nat) (st : ApState ρ) (data : List Int) :
    ApState ρ :=
  if hlen : data.length = 0 then st
  else
    let consumed := min (data.length / c) (MAX_BUFFER_SIZE - st.buffer.length)
    let st1 : ApState ρ := { st with buffer := st.buffer ++ mixStream c (data.take (consumed * c)) }
    let st2 := if st1.buffer.length = MAX_BUFFER_SIZE then resampleF P false st1 else st1
    if hstuck : consumed = 0 ∧ st.buffer.length ≠ MAX_BUFFER_SIZE then st
    else apConsume P c st2 (data.drop (consumed * c))
termination_by 2 * data.length + (if st.buffer.length = MAX_BUFFER_SIZE then 1 else 0)
decreasing_by
  rw [List.length_drop]
  by_cases hcz : data.length / c ⊓ (MAX_BUFFER_SIZE - st.buffer.length) = 0
  · have hfull : st.buffer.length = MAX_BUFFER_SIZE := by
      by_contra hnf
      exact hstuck ⟨hcz, hnf⟩
    have hmix : mixStream c (List.take (consumed * c) data) = [] := by
      have hcz2 : consumed = 0 := hcz
      rw [hcz2, Nat.zero_mul, List.take_zero, mixStream, chunksExact]
      simp
    have hrb : ∀ s : ApState ρ, (resampleF P false s).buffer = [] := by
      intro s
      cases P <;> rfl
    have h1 : st1.buffer.length = MAX_BUFFER_SIZE := by
      show (st.buffer ++ mixStream c (List.take (consumed * c) data)).length = _
      rw [hmix, List.append_nil, hfull]
    have hb : st2.buffer = [] := by
      show (if st1.buffer.length = MAX_BUFFER_SIZE
          then resampleF P false st1 else st1).buffer = []
      rw [if_pos h1, hrb]
    rw [hb]
    have hM : MAX_BUFFER_SIZE = 32768 := rfl
    have hcz2 : consumed = 0 := hcz
    simp only [hcz2, Nat.zero_mul, Nat.sub_zero, List.length_nil, hfull]
    split_ifs <;> omega
  · have hc0 : c ≠ 0 := by
      intro h
      rw [h, Nat.div_zero] at hcz
      simp at hcz
    have hcc : 1 ≤ (data.length / c ⊓ (MAX_BUFFER_SIZE - st.buffer.length)) * c :=
      Nat.one_le_iff_ne_zero.mpr (Nat.mul_ne_zero hcz hc0)
    split_ifs <;> omega

/-- `AudioProcessor::flush`. -/
def apFlush (P : Option (Resampler ρ)) (st : ApState ρ) : ApState ρ :=
  if st.buffer.length ≠ 0 then resampleF P true st else st

end AudioProcessor

-- ===================== theorems =====================

namespace Quantize

/-- C8. Quantizer monotonicity: with ordered thresholds `t0 ≤ t1 ≤ t2`,
`v1 < v2` implies `quantize v1 ≤ quantize v2`. -/
theorem c8_quantize_monotone (q : Quantizer) (h01 : q.t0 ≤ q.t1) (h12 : q.t1 ≤ q.t2)
    (v1 v2 : ℚ) (h : v1 < v2) : quantize q v1 ≤ quantize q v2 := by
  unfold quantize
  split_ifs <;> first | omega | linarith

/-- Witness for C8 at a concrete quantizer and pair of values. -/
theorem c8_quantize_monotone_witness :
    quantize ⟨0, 1, 2⟩ (1/2 : ℚ) ≤ quantize ⟨0, 1, 2⟩ (3/2 : ℚ) :=
  c8_quantize_monotone ⟨0, 1, 2⟩ (by norm_num) (by norm_num) _ _ (by norm_num)

end Quantize

namespace Matcher

/-- C2 counterexample: a fingerprint of length `524286` satisfies
`n + 1 < 2^19`, yet `match_fingerprints` rejects it with
`FingerprintTooLong { index: 0 }` (the code compares against
`OFFSET_MASK = 2^19 - 1`, not `2^19`). -/
theorem c2_counterexample :
    524286 + 1 < 2 ^ 19 ∧
      lengthGuard (List.replicate 524286 0) [] =
        Except.error (MatchError.fingerprintTooLong 0) := by
  refine ⟨by norm_num, ?_⟩
  have hlen : (List.replicate 524286 (0 : Nat)).length = 524286 :=
    List.length_replicate _ _
  unfold lengthGuard
  rw [hlen]
  norm_num [OFFSET_MASK, ALIGN_BITS, Nat.shiftLeft_eq]

/-- C2 (amended): the accepted lengths are exactly those with
`n + 1 < 2^19 - 1`: the guard fails with index 0 iff `fp1` violates the
bound, fails with index 1 iff `fp1` satisfies it and `fp2` violates it,
and returns `Ok` otherwise. -/
theorem c2_length_guard_characterization (fp1 fp2 : List Nat) :
    (lengthGuard fp1 fp2 = Except.error (MatchError.fingerprintTooLong 0) ↔
      ¬ (fp1.length + 1 < 2 ^ 19 - 1)) ∧
    (lengthGuard fp1 fp2 = Except.error (MatchError.fingerprintTooLong 1) ↔
      (fp1.length + 1 < 2 ^ 19 - 1 ∧ ¬ (fp2.length + 1 < 2 ^ 19 - 1))) ∧
    (lengthGuard fp1 fp2 = Except.ok () ↔
      (fp1.length + 1 < 2 ^ 19 - 1 ∧ fp2.length + 1 < 2 ^ 19 - 1)) := by
  have hmask : OFFSET_MASK = 2 ^ 19 - 1 := by norm_num [OFFSET_MASK, ALIGN_BITS, Nat.shiftLeft_eq]
  unfold lengthGuard
  rw [hmask]
  split_ifs with h1 h2 <;>
    refine ⟨⟨fun he => ?_, fun hn => ?_⟩, ⟨fun he => ?_, fun hn => ?_⟩,
      ⟨fun he => ?_, fun hn => ?_⟩⟩ <;>
    simp_all <;> omega

end Matcher

namespace AudioProcessor

theorem frameSum_cons (acc : Int) (x : Int) (xs : List Int) :
    (x :: xs).foldl (fun a y => a + y) acc = xs.foldl (fun a y => a + y) (acc + x) := rfl

theorem foldl_add_le (xs : List Int) (b : Int) (hb : ∀ x ∈ xs, x ≤ b) (acc : Int) :
    xs.foldl (fun a y => a + y) acc ≤ acc + b * xs.length := by
  induction xs generalizing acc with
  | nil => simp
  | cons x xs ih =>
    have hx : x ≤ b := hb x (List.mem_cons_self x xs)
    have := ih (fun y hy => hb y (List.mem_cons_of_mem x hy)) (acc + x)
    calc (x :: xs).foldl (fun a y => a + y) acc
        = xs.foldl (fun a y => a + y) (acc + x) := rfl
      _ ≤ acc + x + b * xs.length := this
      _ ≤ acc + b * (x :: xs).length := by
          simp only [List.length_cons]
          push_cast
          nlinarith [xs.length.cast_nonneg (α := ℤ)]

theorem foldl_add_ge (xs : List Int) (b : Int) (hb : ∀ x ∈ xs, b ≤ x) (acc : Int) :
    acc + b * xs.length ≤ xs.foldl (fun a y => a + y) acc := by
  induction xs generalizing acc with
  | nil => simp
  | cons x xs ih =>
    have hx : b ≤ x := hb x (List.mem_cons_self x xs)
    have := ih (fun y hy => hb y (List.mem_cons_of_mem x hy)) (acc + x)
    calc acc + b * (x :: xs).length
        ≤ acc + x + b * xs.length := by
          simp only [List.length_cons]
          push_cast
          nlinarith [xs.length.cast_nonneg (α := ℤ)]
      _ ≤ xs.foldl (fun a y => a + y) (acc + x) := this
      _ = (x :: xs).foldl (fun a y => a + y) acc := rfl

theorem runningSums_mem_bounds (xs : List Int) (lo hi : Int)
    (hbound : ∀ x ∈ xs, lo ≤ x ∧ x ≤ hi) (hlo : lo ≤ 0) (hhi : 0 ≤ hi) :
    ∀ s ∈ runningSums 0 xs, lo * xs.length ≤ s ∧ s ≤ hi * xs.length := by
  -- generalize over the starting accumulator
  suffices h : ∀ (acc : Int) (k : Nat), lo * k ≤ acc → acc ≤ hi * k →
      ∀ s ∈ runningSums acc xs, lo * (k + xs.length) ≤ s ∧ s ≤ hi * (k + xs.length) by
    intro s hs
    have := h 0 0 (by simp) (by simp) s hs
    simpa using this
  induction xs with
  | nil =>
    intro acc k h1 h2 s hs
    simp only [runningSums, List.mem_singleton] at hs
    subst hs
    constructor <;> nlinarith
  | cons x xs ih =>
    intro acc k h1 h2 s hs
    have hx := hbound x (List.mem_cons_self x xs)
    simp only [runningSums, List.mem_cons] at hs
    rcases hs with rfl | hs
    · constructor <;> simp only [List.length_cons] <;> push_cast <;>
        nlinarith [Int.natCast_nonneg xs.length]
    · have hb' : ∀ y ∈ xs, lo ≤ y ∧ y ≤ hi := fun y hy => hbound y (List.mem_cons_of_mem x hy)
      have h1' : lo * (k + 1 : Nat) ≤ acc + x := by push_cast; push_cast at h1; nlinarith
      have h2' : acc + x ≤ hi * (k + 1 : Nat) := by push_cast; push_cast at h2; nlinarith
      have := ih hb' (acc + x) (k + 1) h1' h2' s hs
      constructor
      · refine le_trans (le_of_eq ?_) this.1
        simp only [List.length_cons]; push_cast; ring
      · refine le_trans this.2 (le_of_eq ?_)
        simp only [List.length_cons]; push_cast; ring

/-- C10. Multi-channel mix-down safety: for `3 ≤ c ≤ 65536` channels and a
whole frame of `i16` samples, every intermediate value of the `i32`
accumulation stays within the `i32` range, and the truncated mean lies
within the `i16` range, so `average.try_into().unwrap()` in
`AudioProcessor::load` cannot panic. -/
theorem c10_mixdown_safe (c : Nat) (frame : List Int)
    (hc3 : 3 ≤ c) (hc : c ≤ 65536) (hlen : frame.length = c)
    (hbound : ∀ x ∈ frame, -32768 ≤ x ∧ x ≤ 32767) :
    (∀ s ∈ runningSums 0 frame, -(2 ^ 31) ≤ s ∧ s ≤ 2 ^ 31 - 1) ∧
    -32768 ≤ multiChannelAverage frame ∧ multiChannelAverage frame ≤ 32767 := by
  have hlen' : (frame.length : Int) = (c : Int) := by rw [hlen]
  have hcpos : (0 : Int) < (c : Int) := by exact_mod_cast Nat.lt_of_lt_of_le (by norm_num) hc3
  have hcle : (c : Int) ≤ 65536 := by exact_mod_cast hc
  refine ⟨?_, ?_⟩
  · intro s hs
    have := runningSums_mem_bounds frame (-32768) 32767 hbound (by norm_num) (by norm_num) s hs
    rw [hlen] at this
    constructor
    · nlinarith [this.1]
    · nlinarith [this.2]
  · -- bounds on the truncated division
    have hsum_lo : -32768 * (c : Int) ≤ frameSum frame := by
      have := foldl_add_ge frame (-32768) (fun x hx => (hbound x hx).1) 0
      rw [hlen'] at this
      simpa [frameSum] using this
    have hsum_hi : frameSum frame ≤ 32767 * (c : Int) := by
      have := foldl_add_le frame 32767 (fun x hx => (hbound x hx).2) 0
      rw [hlen'] at this
      simpa [frameSum] using this
    unfold multiChannelAverage
    rw [hlen']
    rcases le_or_lt 0 (frameSum frame) with hpos | hneg
    · have htd : Int.tdiv (frameSum frame) (c : Int) = frameSum frame / (c : Int) :=
        Int.tdiv_eq_ediv hpos (le_of_lt hcpos)
      rw [htd]
      constructor
      · have : (0 : Int) ≤ frameSum frame / (c : Int) := Int.ediv_nonneg hpos (le_of_lt hcpos)
        omega
      · have : frameSum frame / (c : Int) < 32768 := by
          rw [Int.ediv_lt_iff_lt_mul hcpos]
          nlinarith
        omega
    · have hneg' : Int.tdiv (frameSum frame) (c : Int) = -Int.tdiv (-frameSum frame) (c : Int) := by
        rw [← Int.neg_tdiv, neg_neg]
      rw [hneg']
      have hnn : (0 : Int) ≤ -frameSum frame := by omega
      have htd : Int.tdiv (-frameSum frame) (c : Int) = (-frameSum frame) / (c : Int) :=
        Int.tdiv_eq_ediv hnn (le_of_lt hcpos)
      rw [htd]
      have h1 : (0 : Int) ≤ (-frameSum frame) / (c : Int) := Int.ediv_nonneg hnn (le_of_lt hcpos)
      have h2 : (-frameSum frame) / (c : Int) < 32769 := by
        rw [Int.ediv_lt_iff_lt_mul hcpos]
        nlinarith
      have h3 : (-frameSum frame) / (c : Int) ≤ 32768 := by omega
      omega

/-- Witness for C10: three channels, all samples at the extreme `-32768`. -/
theorem c10_mixdown_safe_witness :
    (∀ s ∈ runningSums 0 [-32768, -32768, -32768], -(2 ^ 31) ≤ s ∧ s ≤ 2 ^ 31 - 1) ∧
    -32768 ≤ multiChannelAverage [-32768, -32768, -32768] ∧
    multiChannelAverage [-32768, -32768, -32768] ≤ 32767 :=
  c10_mixdown_safe 3 [-32768, -32768, -32768] (by norm_num) (by norm_num) (by norm_num)
    (by decide)

end AudioProcessor

namespace Fft

theorem shapeInv_step (binPower : List ℚ → Nat → ℚ) (fs ov : Nat) (st : FftState)
    (h : ShapeInv fs ov st) (hfs : fs / 2 + 1 ≥ fs / 2) :
    ShapeInv fs ov (fftStep binPower st) := by
  obtain ⟨h1, h2, h3, h4⟩ := h
  unfold fftStep ShapeInv
  refine ⟨h1, h2, ?_, ?_⟩
  · simp only [List.length_append, List.length_map, List.length_range, List.length_drop, h1, h3]
    omega
  · simp only [List.all_append, List.all_cons, List.all_nil, Bool.and_true, h1]
    rw [h4]
    simp only [Bool.true_and, beq_iff_eq, List.length_append, List.length_map,
      List.length_range, List.length_drop, h3, decide_eq_true_eq]
    omega

theorem shapeInv_loop (binPower : List ℚ → Nat → ℚ) (fs ov : Nat) :
    ∀ (n : Nat) (st : FftState), st.ringBuf.length ≤ n → ShapeInv fs ov st →
      ShapeInv fs ov (fftLoop binPower st) := by
  intro n
  induction n with
  | zero =>
    intro st hlen hinv
    rw [fftLoop]
    split_ifs with hc
    · -- frameSize ≤ 0 contradicts frameOverlap < frameSize with buffer empty
      exfalso
      omega
    · exact hinv
  | succ n ih =>
    intro st hlen hinv
    rw [fftLoop]
    split_ifs with hc
    · refine ih (fftStep binPower st) ?_ (shapeInv_step binPower fs ov st hinv (by omega))
      simp only [fftStep, List.length_drop]
      omega
    · exact hinv

/-- C3 counterexample: with `frame_size = 2`, `frame_overlap = 1` and two
input samples, the FFT stage passes its consumer one frame of
`frame_size/2 + 1 = 2` values, not `frame_size/2 = 1` as claimed (the
whole `fft_frame` allocation of `1 + frame_size/2` values is passed). -/
theorem c3_counterexample :
    ((fftConsume (fun _ _ => 0) (fftNew 2 1) [0, 0]).frames = [[0, 0]]) ∧
    ¬ (∀ f ∈ (fftConsume (fun _ _ => 0) (fftNew 2 1) [0, 0]).frames,
        f.length = 2 / 2) := by
  have hrun : (fftConsume (fun _ _ => 0) (fftNew 2 1) [0, 0]).frames = [[0, 0]] := by
    unfold fftConsume fftNew
    rw [fftLoop]
    norm_num [fftStep, List.range_succ]
    rw [fftLoop]
    norm_num
  refine ⟨hrun, ?_⟩
  intro hall
  have := hall [0, 0] (by rw [hrun]; exact List.mem_singleton.mpr rfl)
  simp at this

/-- C3 (amended): every power-spectrum frame the FFT stage passes to its
consumer contains exactly `frame_size/2 + 1` values — the computed bins
`0 .. frame_size/2 − 1` plus the never-written trailing slot. -/
theorem c3_frame_size (binPower : List ℚ → Nat → ℚ) (fs ov : Nat)
    (chunks : List (List ℚ)) :
    ((chunks.foldl (fftConsume binPower) (fftNew fs ov)).frames).all
      (fun f => f.length == fs / 2 + 1) = true := by
  suffices h : ∀ (st : FftState), ShapeInv fs ov st →
      ShapeInv fs ov (chunks.foldl (fftConsume binPower) st) by
    have hinit : ShapeInv fs ov (fftNew fs ov) := by
      refine ⟨rfl, rfl, ?_, rfl⟩
      simp [fftNew]
      omega
    exact (h (fftNew fs ov) hinit).2.2.2
  induction chunks with
  | nil => intro st hinv; exact hinv
  | cons c cs ih =>
    intro st hinv
    refine ih _ ?_
    unfold fftConsume
    refine shapeInv_loop binPower fs ov (st.ringBuf.length + c.length) _ (by simp) ?_
    exact ⟨hinv.1, hinv.2.1, hinv.2.2.1, hinv.2.2.2⟩

end Fft

namespace Chroma

theorem sum_range_map_succ (f : Nat → ℚ) (n : Nat) :
    ((List.range (n + 1)).map f).sum = ((List.range n).map f).sum + f n := by
  rw [List.range_succ]
  simp

theorem addEnergy_sum (features : Nat → ℚ) (idx : Nat) (v : ℚ) (hidx : idx < NUM_BANDS) :
    sumFeatures (addEnergy features idx v) = sumFeatures features + v := by
  unfold sumFeatures
  have key : ∀ n : Nat, idx < n →
      ((List.range n).map (addEnergy features idx v)).sum =
        ((List.range n).map features).sum + v := by
    intro n
    induction n with
    | zero => omega
    | succ n ih =>
      intro hn
      rw [sum_range_map_succ, sum_range_map_succ]
      rcases Nat.lt_or_ge idx n with hlt | hge
      · rw [ih hlt]
        have : addEnergy features idx v n = features n := by
          unfold addEnergy
          rw [if_neg (by omega)]
        rw [this]; ring
      · have hidxn : idx = n := by omega
        subst hidxn
        have heq : (List.range idx).map (addEnergy features idx v) =
            (List.range idx).map features := by
          apply List.map_congr_left
          intro k hk
          have hk' : k < idx := List.mem_range.mp hk
          unfold addEnergy
          rw [if_neg (by omega)]
        rw [heq]
        unfold addEnergy
        rw [if_pos rfl]
        ring
  exact key NUM_BANDS hidx

theorem consumeBin_sum (st : ChromaState) (features : Nat → ℚ) (i : Nat) (energy : ℚ)
    (hnote : st.notes i < NUM_BANDS) :
    sumFeatures (consumeBin st features i energy) = sumFeatures features + energy := by
  have hmod : ∀ m : Nat, m % NUM_BANDS < NUM_BANDS :=
    fun m => Nat.mod_lt _ (by norm_num [NUM_BANDS])
  simp only [consumeBin]
  split_ifs with hinterp hgt hlt
  · rw [addEnergy_sum _ _ _ (hmod _), addEnergy_sum _ _ _ hnote]
    ring
  · rw [addEnergy_sum _ _ _ (hmod _), addEnergy_sum _ _ _ hnote]
    ring
  · rw [addEnergy_sum _ _ _ hnote, addEnergy_sum _ _ _ hnote]
    ring
  · exact addEnergy_sum _ _ _ hnote

theorem chroma_fold_sum (st : ChromaState) (frame : List ℚ)
    (hnotes : ∀ i, st.notes i < NUM_BANDS) :
    ∀ (idxs : List Nat) (features : Nat → ℚ),
      sumFeatures (idxs.foldl (fun feats i => consumeBin st feats i (frame.getD i 0)) features) =
        sumFeatures features + (idxs.map (fun i => frame.getD i 0)).sum := by
  intro idxs
  induction idxs with
  | nil => intro features; simp
  | cons i idxs ih =>
    intro features
    simp only [List.foldl_cons, List.map_cons, List.sum_cons]
    rw [ih, consumeBin_sum st features i _ (hnotes i)]
    ring

/-- C9. Chroma energy conservation: whenever the spectrum frame covers
`max_index` bins and the note table is in range, the 12 chroma features
emitted by `Chroma::consume` sum to the input energy over
`[min_index, max_index)`, in both interpolation modes (the interpolated
weights `a` and `1 − a` always sum to 1). -/
theorem c9_chroma_energy_conservation (st : ChromaState) (frame : List ℚ)
    (hlen : st.maxIndex ≤ frame.length)
    (hnotes : ∀ i, st.notes i < NUM_BANDS) :
    sumFeatures (chromaConsume st frame) =
      (((List.range st.maxIndex).drop st.minIndex).map (fun i => frame.getD i 0)).sum := by
  unfold chromaConsume
  rw [chroma_fold_sum st frame hnotes]
  have hmin : min st.maxIndex frame.length = st.maxIndex := Nat.min_eq_left hlen
  rw [hmin]
  simp [sumFeatures]

/-- Witness for C9: interpolated mode with a single active bin whose
fractional note position distributes energy over two bands. -/
theorem c9_chroma_energy_conservation_witness :
    sumFeatures (chromaConsume
      { interpolate := true
        notes := fun _ => 3
        notesFrac := fun _ => 1/4
        minIndex := 0
        maxIndex := 2 } [2, 5]) =
      (((List.range 2).drop 0).map (fun i => ([2, 5] : List ℚ).getD i 0)).sum := by
  have := c9_chroma_energy_conservation
    { interpolate := true
      notes := fun _ => 3
      notesFrac := fun _ => 1/4
      minIndex := 0
      maxIndex := 2 } [2, 5] (by norm_num) (fun i => by norm_num [NUM_BANDS])
  exact this

end Chroma

namespace ChromaFilter

theorem foldl_add_map (l : List Nat) (f : Nat → ℚ) (a : ℚ) :
    l.foldl (fun acc j => acc + f j) a = a + (l.map f).sum := by
  induction l generalizing a with
  | nil => simp
  | cons j l ih =>
    simp only [List.foldl_cons, List.map_cons, List.sum_cons]
    rw [ih]
    ring

theorem convAt_extend (c : List ℚ) (l1 l2 : List (Nat → ℚ)) (m : Nat)
    (h : m + c.length ≤ l1.length) : convAt c l1 m = convAt c (l1 ++ l2) m := by
  unfold convAt
  funext i
  congr 1
  apply List.map_congr_left
  intro j hj
  have hj' : j < c.length := List.mem_range.mp hj
  rw [List.getD_append _ _ _ _ (by omega)]

theorem filterConsume_step (c : List ℚ) (hK1 : 1 ≤ c.length) (hK8 : c.length ≤ BUFFER_LEN)
    (past : List (Nat → ℚ)) (st : FilterState) (hinv : RunInv c past st) (x : Nat → ℚ) :
    RunInv c (past ++ [x]) (filterConsume st x).1 ∧
    (filterConsume st x).2 =
      (if c.length ≤ past.length + 1
        then some (convAt c (past ++ [x]) (past.length + 1 - c.length)) else none) := by
  obtain ⟨hc, ho, hs, hb⟩ := hinv
  subst hc
  have hBL : BUFFER_LEN = 8 := rfl
  -- the updated buffer satisfies the shifted window property
  have hwin : ∀ s, s < past.length + 1 → past.length + 1 ≤ s + BUFFER_LEN →
      (if s % BUFFER_LEN = st.bufferOffset then x else st.buffer (s % BUFFER_LEN)) =
        (past ++ [x]).getD s (fun _ => 0) := by
    intro s hs1 hs2
    rcases Nat.lt_or_ge s past.length with hlt | hge
    · have hne : s % BUFFER_LEN ≠ st.bufferOffset := by
        rw [ho, hBL]
        rw [hBL] at hs2
        omega
      rw [if_neg hne, hb s hlt (by rw [hBL]; rw [hBL] at hs2; omega),
        List.getD_append _ _ _ _ hlt]
    · have hspl : s = past.length := by omega
      subst hspl
      rw [if_pos (by rw [ho]), List.getD_append_right _ _ _ _ (le_refl _)]
      simp
  have hcond : (st.coefficients.length ≤ st.bufferSize) ↔
      (st.coefficients.length ≤ past.length + 1) := by
    rw [hs]
    constructor
    · intro h; exact le_trans h (Nat.min_le_left _ _)
    · intro h; exact Nat.le_min.mpr ⟨h, le_refl _⟩
  by_cases hKpl : st.coefficients.length ≤ past.length + 1
  · -- the filter is warmed up: one vector is emitted
    have hcond' : st.coefficients.length ≤ st.bufferSize := hcond.mpr hKpl
    simp only [filterConsume, if_pos hcond', if_pos hKpl]
    refine ⟨⟨rfl, ?_, ?_, ?_⟩, ?_⟩
    · simp only [List.length_append, List.length_cons, List.length_nil]
      rw [ho, hBL]
      omega
    · rw [hs]
      simp only [List.length_append, List.length_cons, List.length_nil]
      omega
    · intro s hs1 hs2
      simp only [List.length_append, List.length_cons, List.length_nil] at hs1 hs2
      exact hwin s (by omega) (by omega)
    · congr 1
      funext i
      rw [foldl_add_map]
      unfold convAt
      simp only [zero_add]
      congr 1
      apply List.map_congr_left
      intro j hj
      have hj' : j < st.coefficients.length := List.mem_range.mp hj
      have hidx : (((st.bufferOffset + 1) % BUFFER_LEN + BUFFER_LEN - st.coefficients.length) %
          BUFFER_LEN + j) % BUFFER_LEN =
            (past.length + 1 - st.coefficients.length + j) % BUFFER_LEN := by
        rw [ho, hBL]
        rw [hBL] at hK8
        omega
      rw [hidx]
      rw [hwin (past.length + 1 - st.coefficients.length + j) (by omega)
        (by rw [hBL]; rw [hBL] at hK8; omega)]
  · -- still warming up: nothing is emitted
    have hcond' : ¬ st.coefficients.length ≤ st.bufferSize := fun h => hKpl (hcond.mp h)
    simp only [filterConsume, if_neg hcond', if_neg hKpl]
    refine ⟨⟨rfl, ?_, ?_, ?_⟩, by trivial⟩
    · simp only [List.length_append, List.length_cons, List.length_nil]
      rw [ho, hBL]
      omega
    · rw [hs]
      simp only [List.length_append, List.length_cons, List.length_nil]
      omega
    · intro s hs1 hs2
      simp only [List.length_append, List.length_cons, List.length_nil] at hs1 hs2
      exact hwin s (by omega) (by omega)

theorem filterRun_spec (c : List ℚ) (hK1 : 1 ≤ c.length) (hK8 : c.length ≤ BUFFER_LEN) :
    ∀ (future past : List (Nat → ℚ)) (st : FilterState), RunInv c past st →
      (filterRun st future).2 = (List.range future.length).filterMap
        (fun u => if c.length ≤ past.length + u + 1
          then some (convAt c (past ++ future) (past.length + u + 1 - c.length))
          else none) := by
  intro future
  induction future with
  | nil => intro past st _; simp [filterRun]
  | cons x xs ih =>
    intro past st hinv
    obtain ⟨hinv', hout⟩ := filterConsume_step c hK1 hK8 past st hinv x
    have hrest := ih (past ++ [x]) (filterConsume st x).1 hinv'
    simp only [filterRun]
    rw [hout, hrest]
    simp only [List.length_cons, List.length_append, List.length_nil, List.append_assoc,
      List.singleton_append]
    rw [List.range_succ_eq_map, List.filterMap_cons, List.filterMap_map]
    simp only [Nat.add_zero, Nat.zero_add]
    by_cases hc1 : c.length ≤ past.length + 1
    · simp only [if_pos hc1]
      congr 1
      · rw [convAt_extend c (past ++ [x]) xs _ (by simp; omega)]
        simp only [List.append_assoc, List.singleton_append]
      · apply List.filterMap_congr
        intro u hu
        have h2 : past.length + 1 + u + 1 = past.length + (u + 1) + 1 := by omega
        simp only [Function.comp, Nat.succ_eq_add_one, h2]
    · simp only [if_neg hc1]
      apply List.filterMap_congr
      intro u hu
      have h2 : past.length + 1 + u + 1 = past.length + (u + 1) + 1 := by omega
      simp only [Function.comp, Nat.succ_eq_add_one, h2]

theorem filterMap_window (g : Nat → (Nat → ℚ)) (K n : Nat) (hK : 1 ≤ K) :
    (List.range n).filterMap
      (fun u => if K ≤ u + 1 then some (g (u + 1 - K)) else none) =
    (List.range (n + 1 - K)).map g := by
  induction n with
  | zero =>
    rw [Nat.sub_eq_zero_of_le hK]
    simp
  | succ n ih =>
    rw [List.range_succ, List.filterMap_append, ih]
    by_cases hc1 : K ≤ n + 1
    · rw [show n + 1 + 1 - K = (n + 1 - K) + 1 from by omega, List.range_succ, List.map_append]
      simp [hc1]
    · rw [show n + 1 + 1 - K = 0 from by omega, show n + 1 - K = 0 from by omega]
      simp [hc1]

/-- C7. `ChromaFilter` behaviour for a coefficient vector of odd length
`K`, `1 ≤ K ≤ 8`: nothing is emitted for the first `K−1` consumed frames;
from the `K`-th frame on exactly one vector is emitted per frame, the
output for the window starting at `m` being
`y[i] = Σ_{j<K} x[m+j][i]·c[j]`; and after `reset()` the filter emits the
same outputs as a freshly constructed one. -/
theorem c7_chroma_filter (c : List ℚ) (K : Nat) (hlen : c.length = K) (hodd : Odd K)
    (hK1 : 1 ≤ K) (hK8 : K ≤ 8) (xs : List (Nat → ℚ)) :
    (filterRun (filterNew c) xs).2 = convOutputs c xs ∧
    (∀ st : FilterState, st.coefficients = c →
      (filterRun (filterReset st) xs).2 = convOutputs c xs) := by
  have hK1' : 1 ≤ c.length := by omega
  have hK8' : c.length ≤ BUFFER_LEN := by rw [hlen]; exact hK8
  have main : ∀ st : FilterState, RunInv c [] st →
      (filterRun st xs).2 = convOutputs c xs := by
    intro st hinv
    rw [filterRun_spec c hK1' hK8' xs [] st hinv]
    simp only [List.length_nil, List.nil_append, Nat.zero_add]
    rw [filterMap_window (convAt c xs) c.length xs.length hK1']
    rfl
  constructor
  · apply main
    refine ⟨rfl, by simp [filterNew, BUFFER_LEN], ?_, ?_⟩
    · simp only [filterNew, List.length_nil, Nat.zero_add]
      exact (Nat.min_eq_left hK1').symm
    · intro s hs1 _
      simp at hs1
  · intro st hcoef
    apply main
    refine ⟨hcoef, by simp [filterReset, BUFFER_LEN], ?_, ?_⟩
    · simp only [filterReset, List.length_nil, Nat.zero_add]
      exact (Nat.min_eq_left hK1').symm
    · intro s hs1 _
      simp at hs1

/-- Witness for C7: the default five-tap coefficient vector and an empty
input stream. -/
theorem c7_chroma_filter_witness :
    (filterRun (filterNew [1/4, 3/4, 1, 3/4, 1/4]) []).2 =
        convOutputs [1/4, 3/4, 1, 3/4, 1/4] [] ∧
    (∀ st : FilterState, st.coefficients = [1/4, 3/4, 1, 3/4, 1/4] →
      (filterRun (filterReset st) []).2 = convOutputs [1/4, 3/4, 1, 3/4, 1/4] []) :=
  c7_chroma_filter [1/4, 3/4, 1, 3/4, 1/4] 5 (by norm_num) ⟨2, by norm_num⟩
    (by norm_num) (by norm_num) []

end ChromaFilter


namespace Compression

/-- Partial packed value of a chunk suffix, starting at element index `i`. -/
theorem testBit_eq_false_of_lt {x m j : Nat} (h : x < 2 ^ m) (hj : m ≤ j) :
    x.testBit j = false := by
  have hx : x < 2 ^ j := lt_of_lt_of_le h (Nat.pow_le_pow_right (by norm_num) hj)
  simp [Nat.testBit_to_div_mod, Nat.div_eq_of_lt hx]

theorem chunkW_le (n mask : Nat) (hmask : mask = 2 ^ n - 1) :
    ∀ (rest : List Nat) (i : Nat),
      chunkW n mask i rest ≤ 2 ^ (n * (i + rest.length)) - 2 ^ (n * i) := by
  intro rest
  induction rest with
  | nil =>
    intro i
    simp [chunkW]
  | cons b rest ih =>
    intro i
    simp only [chunkW, List.length_cons]
    have hb : b &&& mask ≤ 2 ^ n - 1 := by
      rw [hmask]; exact Nat.and_le_right
    have h1 : (b &&& mask) * 2 ^ (n * i) ≤ (2 ^ n - 1) * 2 ^ (n * i) :=
      Nat.mul_le_mul_right _ hb
    have h2 := ih (i + 1)
    have hrw : i + (rest.length + 1) = i + 1 + rest.length := by omega
    rw [hrw]
    have hA : (1 : Nat) ≤ 2 ^ (n * i) := Nat.one_le_two_pow
    have hAB : 2 ^ (n * i) ≤ 2 ^ (n * (i + 1)) :=
      Nat.pow_le_pow_right (by norm_num) (Nat.mul_le_mul_left _ (by omega))
    have hBC : 2 ^ (n * (i + 1)) ≤ 2 ^ (n * (i + 1 + rest.length)) :=
      Nat.pow_le_pow_right (by norm_num) (Nat.mul_le_mul_left _ (by omega))
    have hp1 : (2 ^ n - 1) * 2 ^ (n * i) = 2 ^ (n * (i + 1)) - 2 ^ (n * i) := by
      have hpow : 2 ^ n * 2 ^ (n * i) = 2 ^ (n * (i + 1)) := by
        rw [← pow_add]; ring_nf
      rw [Nat.sub_mul, one_mul, hpow]
    rw [hp1] at h1
    omega

theorem chunkW_lt (n mask : Nat) (hmask : mask = 2 ^ n - 1)
    (rest : List Nat) (i : Nat) :
    chunkW n mask i rest < 2 ^ (n * (i + rest.length)) := by
  have h := chunkW_le n mask hmask rest i
  have hA : (1 : Nat) ≤ 2 ^ (n * i) := Nat.one_le_two_pow
  have hB : (1 : Nat) ≤ 2 ^ (n * (i + rest.length)) := Nat.one_le_two_pow
  omega

theorem byte_update_right (n i rb s W bits : Nat)
    (hni : n * i = 8 * rb + s) (hs8 : s < 8) (hW : W < 2 ^ (n * i)) :
    ((W >>> (8 * rb)) % 2 ^ 8) ||| ((bits <<< s) % 2 ^ 8) =
      ((2 ^ (n * i) * bits + W) >>> (8 * rb)) % 2 ^ 8 := by
  apply Nat.eq_of_testBit_eq
  intro t
  have hW' : ∀ u, (2 ^ (n * i) * bits + W).testBit u =
      if u < n * i then W.testBit u else bits.testBit (u - n * i) :=
    fun u => Nat.testBit_mul_pow_two_add bits hW u
  simp only [Nat.testBit_lor, Nat.testBit_mod_two_pow, Nat.testBit_shiftRight,
    Nat.testBit_shiftLeft, hW']
  by_cases ht8 : t < 8
  · simp only [ht8, decide_True, Bool.true_and]
    by_cases hts : 8 * rb + t < n * i
    · rw [if_pos hts]
      have hns : ¬ t ≥ s := by omega
      simp [hns]
    · rw [if_neg hts]
      have h1 : t ≥ s := by omega
      have h2 : W.testBit (8 * rb + t) = false := testBit_eq_false_of_lt hW (by omega)
      have h3 : 8 * rb + t - n * i = t - s := by omega
      simp [h1, h2, h3]
  · simp [ht8]

theorem byte_update_left (n i rb s W bits : Nat)
    (hni : n * i = 8 * rb + s) (hs1 : 1 ≤ s) (hs8 : s < 8) (hn8 : n ≤ 8)
    (hW : W < 2 ^ (n * i)) (hbits : bits < 2 ^ n) :
    ((W >>> (8 * (rb + 1))) % 2 ^ 8) ||| (bits >>> (8 - s)) =
      ((2 ^ (n * i) * bits + W) >>> (8 * (rb + 1))) % 2 ^ 8 := by
  apply Nat.eq_of_testBit_eq
  intro t
  have hW' : ∀ u, (2 ^ (n * i) * bits + W).testBit u =
      if u < n * i then W.testBit u else bits.testBit (u - n * i) :=
    fun u => Nat.testBit_mul_pow_two_add bits hW u
  simp only [Nat.testBit_lor, Nat.testBit_mod_two_pow, Nat.testBit_shiftRight, hW']
  by_cases ht8 : t < 8
  · simp only [ht8, decide_True, Bool.true_and]
    have hge : ¬ 8 * (rb + 1) + t < n * i := by omega
    rw [if_neg hge]
    have h2 : W.testBit (8 * (rb + 1) + t) = false := testBit_eq_false_of_lt hW (by omega)
    have h3 : 8 * (rb + 1) + t - n * i = 8 - s + t := by omega
    simp [h2, h3]
  · have h4 : bits.testBit (8 - s + t) = false := testBit_eq_false_of_lt hbits (by omega)
    rw [h4, if_neg (by omega : ¬ 8 * (rb + 1) + t < n * i)]
    simp [ht8, testBit_eq_false_of_lt hW (show n * i ≤ 8 * (rb + 1) + t by omega)]

theorem byte_unchanged_low (n i j W bits rb s : Nat)
    (hni : n * i = 8 * rb + s) (hs8 : s < 8) (hj : j < rb) (hW : W < 2 ^ (n * i)) :
    (W >>> (8 * j)) % 2 ^ 8 = ((2 ^ (n * i) * bits + W) >>> (8 * j)) % 2 ^ 8 := by
  apply Nat.eq_of_testBit_eq
  intro t
  have hW' : ∀ u, (2 ^ (n * i) * bits + W).testBit u =
      if u < n * i then W.testBit u else bits.testBit (u - n * i) :=
    fun u => Nat.testBit_mul_pow_two_add bits hW u
  simp only [Nat.testBit_mod_two_pow, Nat.testBit_shiftRight, hW']
  by_cases ht8 : t < 8
  · simp only [ht8, decide_True, Bool.true_and]
    rw [if_pos (by omega : 8 * j + t < n * i)]
  · simp [ht8]

theorem byte_unchanged_high (j W' : Nat) (hW' : W' < 2 ^ (8 * j)) :
    (W' >>> (8 * j)) % 2 ^ 8 = 0 := by
  rw [Nat.shiftRight_eq_div_pow, Nat.div_eq_of_lt hW']
  rfl

end Compression

namespace Compression

theorem getD_set_self (l : List Nat) (a v : Nat) (h : a < l.length) :
    (l.set a v).getD a 0 = v := by
  simp [List.getD_eq_getElem?_getD, List.getElem?_set, h]

theorem getD_set_ne (l : List Nat) (a b v : Nat) (h : a ≠ b) :
    (l.set a v).getD b 0 = l.getD b 0 := by
  simp [List.getD_eq_getElem?_getD, List.getElem?_set, h]

theorem packChunkGo_spec (n mask : Nat) (hn1 : 1 ≤ n) (hn8 : n ≤ 8)
    (hmask : mask = 2 ^ n - 1) :
    ∀ (rest : List Nat) (i W : Nat) (result : List Nat) (sz : Nat),
      i + rest.length ≤ 8 →
      W < 2 ^ (n * i) →
      result.length = n →
      (∀ j, j < n → result.getD j 0 = (W >>> (8 * j)) % 2 ^ 8) →
      (packChunkGo n mask i result sz rest).1 =
          (if rest.isEmpty then sz else ((i + rest.length) * n - 1) / 8 + 1) ∧
      (packChunkGo n mask i result sz rest).2.length = n ∧
      (∀ j, j < n → (packChunkGo n mask i result sz rest).2.getD j 0 =
          ((W + chunkW n mask i rest) >>> (8 * j)) % 2 ^ 8) := by
  intro rest
  induction rest with
  | nil =>
    intro i W result sz _ _ hlen hbytes
    refine ⟨rfl, hlen, ?_⟩
    intro j hj
    simpa [chunkW] using hbytes j hj
  | cons b rest ih =>
    intro i W result sz hi hW hlen hbytes
    have hi' : i + (rest.length + 1) <= 8 := by simpa using hi
    have hmul1 : (i + 1) * n = i * n + n := by ring
    have hmul2 : (i + (rest.length + 1)) * n = i * n + n + rest.length * n := by ring
    have hmul3 : (i + 1 + rest.length) * n = i * n + n + rest.length * n := by ring
    have hmul1' : n * (i + 1) = i * n + n := by ring
    have hcomm : n * i = i * n := Nat.mul_comm n i
    have hi7 : i <= 7 := by omega
    have hin : i * n <= 7 * n := Nat.mul_le_mul_right n hi7
    have h2n1 : (1 : Nat) <= 2 ^ n := Nat.one_le_two_pow
    have h2A1 : (1 : Nat) <= 2 ^ (n * i) := Nat.one_le_two_pow
    have hbits : b &&& mask < 2 ^ n := by
      have h1 : b &&& mask <= mask := Nat.and_le_right
      omega
    have hs8 : i * n % 8 < 8 := Nat.mod_lt _ (by norm_num)
    have hni : n * i = 8 * (i * n / 8) + i * n % 8 := by
      rw [mul_comm]
      omega
    have hlbn : (i * n + n - 1) / 8 < n := by omega
    have hrbn : i * n / 8 < n := by omega
    have hrble : i * n / 8 <= (i * n + n - 1) / 8 := by omega
    have hrblb : (i * n + n - 1) / 8 = i * n / 8 \/
        (i * n + n - 1) / 8 = i * n / 8 + 1 := by omega
    have hWcomm : W + (b &&& mask) * 2 ^ (n * i) = 2 ^ (n * i) * (b &&& mask) + W := by
      ring
    have hpow2 : 2 ^ (n * (i + 1)) = 2 ^ n * 2 ^ (n * i) := by
      rw [<- pow_add]
      ring_nf
    have hW' : W + (b &&& mask) * 2 ^ (n * i) < 2 ^ (n * (i + 1)) := by
      have h1 : (b &&& mask) * 2 ^ (n * i) <= (2 ^ n - 1) * 2 ^ (n * i) :=
        Nat.mul_le_mul_right _ (by omega)
      have h5 : (2 ^ n - 1) * 2 ^ (n * i) = 2 ^ n * 2 ^ (n * i) - 2 ^ (n * i) := by
        rw [Nat.sub_mul, one_mul]
      have h6 : 2 ^ (n * i) <= 2 ^ n * 2 ^ (n * i) := Nat.le_mul_of_pos_left _ (by omega)
      rw [hpow2]
      omega
    have hch : W + chunkW n mask i (b :: rest) =
        W + (b &&& mask) * 2 ^ (n * i) + chunkW n mask (i + 1) rest := by
      simp only [chunkW]
      ring
    have hstep : packChunkGo n mask i result sz (b :: rest) =
        packChunkGo n mask (i + 1)
          (if (i * n + n - 1) / 8 ≠ i * n / 8 then
            (result.set (i * n / 8)
              ((result.getD (i * n / 8) 0) ||| (((b &&& mask) <<< (i * n % 8)) % 256))).set
              ((i * n + n - 1) / 8)
              (((result.set (i * n / 8)
                ((result.getD (i * n / 8) 0) |||
                  (((b &&& mask) <<< (i * n % 8)) % 256))).getD ((i * n + n - 1) / 8) 0) |||
                ((b &&& mask) >>> ((8 - i * n % 8) % 8)))
          else
            result.set (i * n / 8)
              ((result.getD (i * n / 8) 0) ||| (((b &&& mask) <<< (i * n % 8)) % 256)))
          ((i * n + n - 1) / 8 + 1) rest := rfl
    have h256 : (256 : Nat) = 2 ^ 8 := by norm_num
    obtain hA | hB := hrblb
    · -- the value fits inside the right byte
      have hsn : i * n % 8 + n <= 8 := by omega
      rw [hstep, hA, if_neg (by simp)]
      set R1 := result.set (i * n / 8)
        ((result.getD (i * n / 8) 0) ||| (((b &&& mask) <<< (i * n % 8)) % 256)) with hR1
      have hlenR1 : R1.length = n := by rw [hR1, List.length_set, hlen]
      have hbytesA : ∀ j, j < n → R1.getD j 0 =
          ((W + (b &&& mask) * 2 ^ (n * i)) >>> (8 * j)) % 2 ^ 8 := by
        intro j hj
        rcases Nat.lt_trichotomy j (i * n / 8) with hlt | heq | hgt
        · rw [hR1, getD_set_ne _ _ _ _ (by omega), hbytes j hj, hWcomm]
          exact byte_unchanged_low n i j W (b &&& mask) (i * n / 8) (i * n % 8) hni hs8 hlt hW
        · rw [heq, hR1, getD_set_self _ _ _ (by rw [hlen]; omega),
            hbytes _ (by omega), hWcomm, h256]
          exact byte_update_right n i (i * n / 8) (i * n % 8) W (b &&& mask) hni hs8 hW
        · rw [hR1, getD_set_ne _ _ _ _ (by omega), hbytes j hj, hWcomm]
          have hz1 : W < 2 ^ (8 * j) :=
            lt_of_lt_of_le hW (Nat.pow_le_pow_right (by norm_num) (by omega))
          have hz2 : 2 ^ (n * i) * (b &&& mask) + W < 2 ^ (8 * j) := by
            rw [<- hWcomm]
            refine lt_of_lt_of_le hW' (Nat.pow_le_pow_right (by norm_num) ?_)
            omega
          rw [byte_unchanged_high j W hz1, byte_unchanged_high j _ hz2]
      have H := ih (i + 1) (W + (b &&& mask) * 2 ^ (n * i)) R1 (i * n / 8 + 1)
        (by omega) hW' hlenR1 hbytesA
      refine ⟨?_, H.2.1, ?_⟩
      · rw [H.1]
        cases rest with
        | nil => simp [hA, hmul1]
        | cons r rs =>
          simp only [List.isEmpty_cons, List.length_cons, if_false, Bool.false_eq_true]
          rw [show i + 1 + (rs.length + 1) = i + (rs.length + 1 + 1) from by omega]
      · intro j hj
        rw [H.2.2 j hj, hch]
    · -- the value straddles two bytes
      have hs1 : 1 <= i * n % 8 := by omega
      have hmod8 : (8 - i * n % 8) % 8 = 8 - i * n % 8 := Nat.mod_eq_of_lt (by omega)
      rw [hstep, if_pos (by omega), hB, hmod8]
      set R1 := result.set (i * n / 8)
        ((result.getD (i * n / 8) 0) ||| (((b &&& mask) <<< (i * n % 8)) % 256)) with hR1
      set R2 := R1.set (i * n / 8 + 1)
        ((R1.getD (i * n / 8 + 1) 0) ||| ((b &&& mask) >>> (8 - i * n % 8))) with hR2
      have hlenR1 : R1.length = n := by rw [hR1, List.length_set, hlen]
      have hlenR2 : R2.length = n := by rw [hR2, List.length_set, hlenR1]
      have hbytesB : ∀ j, j < n → R2.getD j 0 =
          ((W + (b &&& mask) * 2 ^ (n * i)) >>> (8 * j)) % 2 ^ 8 := by
        intro j hj
        rcases Nat.lt_trichotomy j (i * n / 8) with hlt | heq | hgt
        · rw [hR2, getD_set_ne _ _ _ _ (by omega), hR1, getD_set_ne _ _ _ _ (by omega),
            hbytes j hj, hWcomm]
          exact byte_unchanged_low n i j W (b &&& mask) (i * n / 8) (i * n % 8) hni hs8 hlt hW
        · rw [heq, hR2, getD_set_ne _ _ _ _ (by omega), hR1,
            getD_set_self _ _ _ (by rw [hlen]; omega), hbytes _ (by omega), hWcomm, h256]
          exact byte_update_right n i (i * n / 8) (i * n % 8) W (b &&& mask) hni hs8 hW
        · rcases Nat.lt_trichotomy j (i * n / 8 + 1) with hlt2 | heq2 | hgt2
          · omega
          · rw [heq2, hR2, getD_set_self _ _ _ (by rw [hlenR1]; omega), hR1,
              getD_set_ne _ _ _ _ (by omega), hbytes _ (by omega), hWcomm]
            exact byte_update_left n i (i * n / 8) (i * n % 8) W (b &&& mask) hni hs1 hs8
              hn8 hW hbits
          · rw [hR2, getD_set_ne _ _ _ _ (by omega), hR1, getD_set_ne _ _ _ _ (by omega),
              hbytes j hj, hWcomm]
            have hz1 : W < 2 ^ (8 * j) :=
              lt_of_lt_of_le hW (Nat.pow_le_pow_right (by norm_num) (by omega))
            have hz2 : 2 ^ (n * i) * (b &&& mask) + W < 2 ^ (8 * j) := by
              rw [<- hWcomm]
              refine lt_of_lt_of_le hW' (Nat.pow_le_pow_right (by norm_num) ?_)
              omega
            rw [byte_unchanged_high j W hz1, byte_unchanged_high j _ hz2]
      have H := ih (i + 1) (W + (b &&& mask) * 2 ^ (n * i)) R2 (i * n / 8 + 1 + 1)
        (by omega) hW' hlenR2 hbytesB
      refine ⟨?_, H.2.1, ?_⟩
      · rw [H.1]
        cases rest with
        | nil => simp [hB, hmul1]
        | cons r rs =>
          simp only [List.isEmpty_cons, List.length_cons, if_false, Bool.false_eq_true]
          rw [show i + 1 + (rs.length + 1) = i + (rs.length + 1 + 1) from by omega]
      · intro j hj
        rw [H.2.2 j hj, hch]

end Compression

namespace Compression

theorem mask_eq (n : Nat) (hn1 : 1 ≤ n) (hn8 : n ≤ 8) :
    ((0xFF <<< (8 - n)) % 256) >>> (8 - n) = 2 ^ n - 1 := by
  interval_cases n <;> rfl

theorem getD_take (l : List Nat) (k j : Nat) (hj : j < k) :
    (l.take k).getD j 0 = l.getD j 0 := by
  simp [List.getD_eq_getElem?_getD, List.getElem?_take, hj]

theorem byte_testBit (W t : Nat) :
    ((W >>> (8 * (t / 8))) % 2 ^ 8).testBit (t % 8) = W.testBit t := by
  have hm : t % 8 < 8 := Nat.mod_lt _ (by norm_num)
  have hdm : 8 * (t / 8) + t % 8 = t := Nat.div_add_mod t 8
  rw [Nat.testBit_mod_two_pow, Nat.testBit_shiftRight, hdm]
  simp [hm]

theorem chunkW_succ (n mask : Nat) (l : List Nat) :
    ∀ i, chunkW n mask (i + 1) l = 2 ^ n * chunkW n mask i l := by
  induction l with
  | nil => intro i; simp [chunkW]
  | cons b rest ih =>
    intro i
    simp only [chunkW, ih (i + 1)]
    have h1 : 2 ^ (n * (i + 1)) = 2 ^ n * 2 ^ (n * i) := by
      rw [← pow_add]; ring_nf
    rw [h1]
    ring

theorem chunkW_zero_testBit (n mask : Nat) (hmask : mask = 2 ^ n - 1) (hn1 : 1 ≤ n) :
    ∀ (c : List Nat) (i b : Nat), i < c.length → b < n →
      (chunkW n mask 0 c).testBit (n * i + b) = (c.getD i 0 &&& mask).testBit b := by
  intro c
  induction c with
  | nil => intro i b hi _; simp at hi
  | cons x rest ih =>
    intro i b hi hb
    have hxm : x &&& mask < 2 ^ n := by
      have h1 : x &&& mask ≤ mask := Nat.and_le_right
      have h2 : (1 : Nat) ≤ 2 ^ n := Nat.one_le_two_pow
      omega
    have hform : chunkW n mask 0 (x :: rest) =
        2 ^ n * chunkW n mask 0 rest + (x &&& mask) := by
      simp only [chunkW, Nat.mul_zero, pow_zero, Nat.mul_one, Nat.zero_add]
      rw [chunkW_succ n mask rest 0]
      ring
    rw [hform]
    have htb := Nat.testBit_mul_pow_two_add (chunkW n mask 0 rest) hxm (n * i + b)
    rw [show (2 : Nat) ^ n * chunkW n mask 0 rest = 2 ^ n * chunkW n mask 0 rest from rfl] at htb
    cases i with
    | zero =>
      rw [htb]
      simp only [Nat.mul_zero, Nat.zero_add]
      rw [if_pos hb]
      rfl
    | succ i' =>
      rw [htb]
      rw [if_neg (by push_cast; nlinarith [Nat.one_le_iff_ne_zero.mp hn1])]
      have harith : n * (i' + 1) + b - n = n * i' + b := by
        have : n * (i' + 1) = n * i' + n := by ring
        omega
      rw [harith]
      have := ih i' b (by simpa using Nat.lt_of_succ_lt_succ hi) hb
      rw [this]
      rfl

theorem packChunk_spec (n : Nat) (hn1 : 1 ≤ n) (hn8 : n ≤ 8) (chunk : List Nat)
    (hlen : chunk.length ≤ 8) :
    (packChunk n chunk).length = (chunk.length * n + 7) / 8 ∧
    ∀ t, streamBit (packChunk n chunk) t = (chunkW n (2 ^ n - 1) 0 chunk).testBit t := by
  have hln : chunk.length * n ≤ 8 * n := by
    have := Nat.mul_le_mul_right n hlen
    omega
  have H := packChunkGo_spec n (2 ^ n - 1) hn1 hn8 rfl chunk 0 0 (List.replicate n 0) 0
    (by omega) (by simpa using Nat.one_le_two_pow) (by simp)
    (by
      intro j hj
      simp [List.getD_eq_getElem?_getD, List.getElem?_replicate, hj, Nat.zero_shiftRight])
  obtain ⟨hsz, hlen2, hbytes⟩ := H
  have hWlt : chunkW n (2 ^ n - 1) 0 chunk < 2 ^ (n * chunk.length) := by
    have := chunkW_lt n (2 ^ n - 1) rfl chunk 0
    simpa using this
  simp only [Nat.zero_add] at hbytes
  simp only [packChunk]
  rw [mask_eq n hn1 hn8]
  rw [hsz]
  cases chunk with
  | nil =>
    constructor
    · simp [packChunkGo]
    · intro t
      simp [streamBit, chunkW, packChunkGo]
  | cons c0 cs =>
    have hne : ((c0 :: cs).isEmpty) = false := rfl
    have hcm : (0 + (c0 :: cs).length) * n = n * (c0 :: cs).length := by ring
    rw [hne]
    simp only [Bool.false_eq_true, if_false]
    have hsize_le : ((0 + (c0 :: cs).length) * n - 1) / 8 + 1 ≤ n := by
      simp only [Nat.zero_add]
      omega
    have hsize_eq : ((0 + (c0 :: cs).length) * n - 1) / 8 + 1 =
        ((c0 :: cs).length * n + 7) / 8 := by
      simp only [Nat.zero_add]
      have hpos : 1 ≤ (c0 :: cs).length * n := by
        have : 1 ≤ (c0 :: cs).length := by simp
        have := Nat.mul_le_mul this (le_refl n)
        omega
      omega
    constructor
    · rw [List.length_take, hlen2, hsize_eq]
      omega
    · intro t
      by_cases ht : t < 8 * (((0 + (c0 :: cs).length) * n - 1) / 8 + 1)
      · unfold streamBit
        rw [getD_take _ _ _ (by omega), hbytes (t / 8) (by omega), byte_testBit]
      · unfold streamBit
        have hout : (((packChunkGo n (2 ^ n - 1) 0 (List.replicate n 0) 0 (c0 :: cs)).2.take
            (((0 + (c0 :: cs).length) * n - 1) / 8 + 1)).getD (t / 8) 0) = 0 := by
          apply List.getD_eq_default
          rw [List.length_take]
          omega
        rw [hout]
        rw [Nat.zero_testBit]
        rw [testBit_eq_false_of_lt hWlt (by omega)]

end Compression

namespace Compression

theorem chunks8_nil : chunks8 [] = [] := by rw [chunks8]

theorem chunks8_cons (x : Nat) (xs : List Nat) :
    chunks8 (x :: xs) = ((x :: xs).take 8) :: chunks8 ((x :: xs).drop 8) := by
  rw [chunks8]

theorem iterPacked_nil (n : Nat) : iterPackedIntnArray n [] = [] := by
  simp [iterPackedIntnArray, chunks8_nil]

theorem iterPacked_cons (n : Nat) (x : Nat) (xs : List Nat) :
    iterPackedIntnArray n (x :: xs) =
      packChunk n ((x :: xs).take 8) ++ iterPackedIntnArray n ((x :: xs).drop 8) := by
  rw [iterPackedIntnArray, chunks8_cons, List.flatMap_cons]
  rfl

theorem iterPacked_length (n : Nat) (hn1 : 1 ≤ n) (hn8 : n ≤ 8) :
    ∀ (k : Nat) (arr : List Nat), arr.length ≤ k →
      (iterPackedIntnArray n arr).length = (arr.length * n + 7) / 8 := by
  intro k
  induction k with
  | zero =>
    intro arr h
    have : arr = [] := List.eq_nil_of_length_eq_zero (by omega)
    subst this
    simp [iterPacked_nil]
  | succ k ih =>
    intro arr h
    cases arr with
    | nil => simp [iterPacked_nil]
    | cons x xs =>
      rw [iterPacked_cons, List.length_append]
      rw [(packChunk_spec n hn1 hn8 _ (by rw [List.length_take]; omega)).1]
      rw [ih _ (by simp only [List.length_drop, List.length_cons] at h ⊢; omega)]
      simp only [List.length_take, List.length_drop, List.length_cons]
      by_cases hL : xs.length + 1 ≤ 8
      · have hmin : min 8 (xs.length + 1) = xs.length + 1 := by omega
        rw [hmin, Nat.sub_eq_zero_of_le hL]
        simp
      · have hmin : min 8 (xs.length + 1) = 8 := by omega
        rw [hmin]
        have hsub : (xs.length + 1 - 8) * n = (xs.length + 1) * n - 8 * n := by
          rw [Nat.sub_mul]
        have hge : 8 * n ≤ (xs.length + 1) * n := Nat.mul_le_mul_right n (by omega)
        omega

theorem streamBit_append (b1 b2 : List Nat) (t : Nat) :
    streamBit (b1 ++ b2) t =
      if t < 8 * b1.length then streamBit b1 t else streamBit b2 (t - 8 * b1.length) := by
  unfold streamBit
  by_cases h : t < 8 * b1.length
  · rw [if_pos h, List.getD_eq_getElem?_getD, List.getD_eq_getElem?_getD,
      List.getElem?_append_left (by omega)]
  · rw [if_neg h, List.getD_eq_getElem?_getD, List.getD_eq_getElem?_getD,
      List.getElem?_append_right (by omega : b1.length ≤ t / 8)]
    have h1 : t / 8 - b1.length = (t - 8 * b1.length) / 8 := by omega
    have h2 : t % 8 = (t - 8 * b1.length) % 8 := by omega
    rw [h1, h2]

theorem streamBit_iterPacked (n : Nat) (hn1 : 1 ≤ n) (hn8 : n ≤ 8) :
    ∀ (k : Nat) (arr : List Nat), arr.length ≤ k → ∀ i b, i < arr.length → b < n →
      streamBit (iterPackedIntnArray n arr) (n * i + b) =
        (arr.getD i 0 &&& (2 ^ n - 1)).testBit b := by
  intro k
  induction k with
  | zero =>
    intro arr h i b hi
    omega
  | succ k ih =>
    intro arr h i b hi hb
    cases arr with
    | nil => simp at hi
    | cons x xs =>
      rw [iterPacked_cons]
      have htakelen : ((x :: xs).take 8).length = min 8 (xs.length + 1) := by
        rw [List.length_take, List.length_cons]
      have hchunklen := (packChunk_spec n hn1 hn8 ((x :: xs).take 8)
        (by rw [List.length_take]; omega)).1
      rw [streamBit_append]
      by_cases hi8 : i < 8
      · have himin : i < min 8 (xs.length + 1) := by
          simp only [List.length_cons] at hi
          omega
        have hbound : n * i + b < 8 * (packChunk n ((x :: xs).take 8)).length := by
          rw [hchunklen, htakelen]
          have h1 : n * i + b < n * min 8 (xs.length + 1) := by
            have : n * (i + 1) ≤ n * min 8 (xs.length + 1) :=
              Nat.mul_le_mul_left n (by omega)
            have h2 : n * (i + 1) = n * i + n := by ring
            omega
          have h2 : n * min 8 (xs.length + 1) = min 8 (xs.length + 1) * n := by ring
          omega
        rw [if_pos hbound]
        rw [(packChunk_spec n hn1 hn8 ((x :: xs).take 8) (by rw [List.length_take]; omega)).2]
        rw [chunkW_zero_testBit n (2 ^ n - 1) rfl hn1 _ i b (by rw [htakelen]; omega) hb]
        rw [getD_take _ _ _ hi8]
      · have hchunk8 : ((x :: xs).take 8).length = 8 := by
          simp only [List.length_cons] at hi
          rw [htakelen]
          omega
        have hpacklen : (packChunk n ((x :: xs).take 8)).length = n := by
          rw [hchunklen, hchunk8]
          omega
        have hib : ¬ n * i + b < 8 * (packChunk n ((x :: xs).take 8)).length := by
          rw [hpacklen]
          have : n * 8 ≤ n * i := Nat.mul_le_mul_left n (by omega)
          have h2 : n * 8 = 8 * n := by ring
          omega
        rw [if_neg hib, hpacklen]
        have harith : n * i + b - 8 * n = n * (i - 8) + b := by
          have h0 : i - 8 + 8 = i := Nat.sub_add_cancel (by omega)
          have h1 : n * (i - 8 + 8) = n * (i - 8) + n * 8 := by ring
          rw [h0] at h1
          omega
        rw [harith]
        have hdroplen : i - 8 < ((x :: xs).drop 8).length := by
          simp only [List.length_drop, List.length_cons]
          simp only [List.length_cons] at hi
          omega
        have hlk : ((x :: xs).drop 8).length ≤ k := by
          simp only [List.length_drop, List.length_cons]
          simp only [List.length_cons] at h
          omega
        rw [ih ((x :: xs).drop 8) hlk (i - 8) b hdroplen hb]
        congr 1
        rw [List.getD_eq_getElem?_getD, List.getD_eq_getElem?_getD, List.getElem?_drop,
          (by omega : (8 : Nat) + (i - 8) = i)]

theorem sum_bits (x : Nat) : ∀ m,
    ((List.range m).map (fun b => if x.testBit b then 2 ^ b else 0)).sum = x % 2 ^ m := by
  intro m
  induction m with
  | zero => simp [Nat.mod_one]
  | succ m ih =>
    rw [List.range_succ, List.map_append, List.sum_append, ih]
    have hmm : (2 : Nat) ^ (m + 1) = 2 ^ m * 2 := by rw [pow_succ]
    rw [hmm, Nat.mod_mul]
    have hbit : x.testBit m = decide (x / 2 ^ m % 2 = 1) := Nat.testBit_to_div_mod
    have h01 : x / 2 ^ m % 2 = 0 ∨ x / 2 ^ m % 2 = 1 := by omega
    rcases h01 with h0 | h1
    · simp [hbit, h0]
    · simp [hbit, h1]

theorem unpackIntN_getD (n : Nat) (bytes : List Nat) (i : Nat)
    (hi : i < bytes.length * 8 / n) :
    (unpackIntN n bytes).getD i 0 =
      ((List.range n).map (fun b => if streamBit bytes (n * i + b) then 2 ^ b else 0)).sum := by
  unfold unpackIntN
  rw [List.getD_eq_getElem?_getD, List.getElem?_map, List.getElem?_range hi]
  rfl

theorem unpack_pack (n : Nat) (hn1 : 1 ≤ n) (hn8 : n ≤ 8) (arr extra : List Nat) (i : Nat)
    (hi : i < arr.length) (hv : arr.getD i 0 < 2 ^ n) :
    (unpackIntN n (iterPackedIntnArray n arr ++ extra)).getD i 0 = arr.getD i 0 := by
  have hlen := iterPacked_length n hn1 hn8 arr.length arr (le_refl _)
  have hcnt : i < (iterPackedIntnArray n arr ++ extra).length * 8 / n := by
    rw [List.length_append, hlen]
    have h1 : arr.length * n ≤ (arr.length * n + 7) / 8 * 8 := by omega
    have h3 : (i + 1) * n ≤ arr.length * n := Nat.mul_le_mul_right n (by omega)
    have h8 : (i + 1) ≤ ((arr.length * n + 7) / 8 + extra.length) * 8 / n := by
      rw [Nat.le_div_iff_mul_le (by omega : 0 < n)]
      omega
    omega
  rw [unpackIntN_getD n _ i hcnt]
  have hmap : (List.range n).map
      (fun b => if streamBit (iterPackedIntnArray n arr ++ extra) (n * i + b) then 2 ^ b else 0) =
      (List.range n).map (fun b => if (arr.getD i 0 &&& (2 ^ n - 1)).testBit b then 2 ^ b else 0) := by
    apply List.map_congr_left
    intro b hbmem
    have hb : b < n := List.mem_range.mp hbmem
    have hfit : n * i + b < 8 * (iterPackedIntnArray n arr).length := by
      rw [hlen]
      have h3 : (i + 1) * n ≤ arr.length * n := Nat.mul_le_mul_right n (by omega)
      have h4 : (i + 1) * n = n * i + n := by ring
      omega
    rw [streamBit_append, if_pos hfit,
      streamBit_iterPacked n hn1 hn8 arr.length arr (le_refl _) i b hi hb]
  rw [hmap, sum_bits, Nat.and_pow_two_sub_one_eq_mod, Nat.mod_eq_of_lt hv,
    Nat.mod_eq_of_lt hv]

end Compression

namespace Compression

theorem filterMap_if_eq_map_filter (p : Nat → Bool) (g : Nat → Nat) (l : List Nat) :
    l.filterMap (fun i => if p i then some (g i) else none) = (l.filter p).map g := by
  induction l with
  | nil => rfl
  | cons a l ih =>
    by_cases hp : p a
    · simp [List.filterMap_cons, List.filter_cons, hp, ih]
    · simp [List.filterMap_cons, List.filter_cons, hp, ih]

theorem setBitPositions_eq (x : Nat) :
    setBitPositions x = ((List.range 32).filter (fun i => x.testBit i)).map (· + 1) := by
  unfold setBitPositions
  exact filterMap_if_eq_map_filter _ _ _

theorem setBitPositions_chain (x : Nat) : List.Chain (· < ·) 0 (setBitPositions x) := by
  rw [List.chain_iff_pairwise, setBitPositions_eq]
  constructor
  · intro p hp
    simp only [List.mem_map, List.mem_filter, List.mem_range] at hp
    obtain ⟨i, _, rfl⟩ := hp
    omega
  · rw [List.pairwise_map]
    exact ((List.pairwise_lt_range 32).filter _).imp (by omega)

theorem setBitPositions_le (x : Nat) : ∀ p ∈ setBitPositions x, p ≤ 32 := by
  intro p hp
  rw [setBitPositions_eq] at hp
  simp only [List.mem_map, List.mem_filter, List.mem_range] at hp
  obtain ⟨i, ⟨hi, _⟩, rfl⟩ := hp
  omega

theorem positions_sum (d : Nat) (hd : d < 2 ^ 32) :
    ((setBitPositions d).map (fun p => 2 ^ (p - 1))).sum = d := by
  rw [setBitPositions_eq, List.map_map]
  have hfun : ((fun p => 2 ^ (p - 1)) ∘ (· + 1)) = (fun i : Nat => (2 : Nat) ^ i) := by
    funext i
    simp
  rw [hfun]
  -- sum over the filtered range equals the if-sum over the range
  have hsum : ∀ l : List Nat,
      ((l.filter (fun i => d.testBit i)).map (fun i : Nat => (2 : Nat) ^ i)).sum =
        (l.map (fun i => if d.testBit i then 2 ^ i else 0)).sum := by
    intro l
    induction l with
    | nil => rfl
    | cons a l ih =>
      by_cases hp : d.testBit a
      · simp [List.filter_cons, hp, ih]
      · simp [List.filter_cons, hp, ih]
  rw [hsum, sum_bits d 32, Nat.mod_eq_of_lt hd]

theorem MAX_NORMAL_VALUE_eq : MAX_NORMAL_VALUE = 7 := rfl

theorem gapsFrom_fst_bounds :
    ∀ (ps : List Nat) (last : Nat), List.Chain (· < ·) last ps →
      ∀ pr ∈ gapsFrom last ps, 1 ≤ pr.1 ∧ pr.1 ≤ 7 := by
  intro ps
  induction ps with
  | nil => intro last _ pr hpr; simp [gapsFrom] at hpr
  | cons p ps ih =>
    intro last hchain pr hpr
    obtain ⟨hlt, hchain'⟩ := List.chain_cons.mp hchain
    simp only [gapsFrom, List.mem_cons] at hpr
    rcases hpr with rfl | hpr
    · have h7 := MAX_NORMAL_VALUE_eq
      split_ifs with hg
      · simp only []
        omega
      · simp only []
        constructor <;> omega
    · exact ih p hchain' pr hpr

theorem gapsFrom_snd_bounds :
    ∀ (ps : List Nat) (last : Nat), List.Chain (· < ·) last ps → (∀ p ∈ ps, p ≤ 32) →
      ∀ pr ∈ gapsFrom last ps, ∀ e, pr.2 = some e → e < 32 := by
  intro ps
  induction ps with
  | nil => intro last _ _ pr hpr; simp [gapsFrom] at hpr
  | cons p ps ih =>
    intro last hchain hle pr hpr e he
    obtain ⟨hlt, hchain'⟩ := List.chain_cons.mp hchain
    simp only [gapsFrom, List.mem_cons] at hpr
    rcases hpr with rfl | hpr
    · have h7 := MAX_NORMAL_VALUE_eq
      split_ifs at he with hg
      · simp only [Option.some.injEq] at he
        have hp32 : p ≤ 32 := hle p (List.mem_cons_self p ps)
        omega
    · exact ih p hchain' (fun q hq => hle q (List.mem_cons_of_mem p hq)) pr hpr e he

theorem compressSubfingerprint_fst_le (x : Nat) :
    ∀ v ∈ (compressSubfingerprint x).map Prod.fst, v < 2 ^ 3 := by
  intro v hv
  simp only [compressSubfingerprint, List.map_append, List.mem_append] at hv
  rcases hv with hv | hv
  · simp only [List.mem_map] at hv
    obtain ⟨pr, hpr, rfl⟩ := hv
    have := gapsFrom_fst_bounds (setBitPositions x) 0 (setBitPositions_chain x) pr hpr
    omega
  · simp at hv
    omega

theorem compressSubfingerprint_snd_lt (x : Nat) :
    ∀ e ∈ (compressSubfingerprint x).filterMap Prod.snd, e < 2 ^ 5 := by
  intro e he
  simp only [compressSubfingerprint, List.filterMap_append, List.mem_append] at he
  rcases he with he | he
  · simp only [List.mem_filterMap] at he
    obtain ⟨pr, hpr, hsnd⟩ := he
    have := gapsFrom_snd_bounds (setBitPositions x) 0 (setBitPositions_chain x)
      (setBitPositions_le x) pr hpr e hsnd
    omega
  · simp at he

end Compression

namespace Compression

theorem decodeOne_cons_zero (pos acc : Nat) (gs excs : List Nat) :
    decodeOne pos acc (0 :: gs) excs = some (acc, gs, excs) := by
  simp [decodeOne]

theorem decodeOne_cons_max (pos acc e : Nat) (gs es : List Nat) :
    decodeOne pos acc (MAX_NORMAL_VALUE :: gs) (e :: es)
      = decodeOne (pos + MAX_NORMAL_VALUE + e)
          (acc + 2 ^ (pos + MAX_NORMAL_VALUE + e - 1)) gs es := by
  have h7 := MAX_NORMAL_VALUE_eq
  simp [decodeOne, h7]

theorem decodeOne_cons_small (pos acc g : Nat) (h0 : g ≠ 0) (h7 : g ≠ MAX_NORMAL_VALUE)
    (gs excs : List Nat) :
    decodeOne pos acc (g :: gs) excs
      = decodeOne (pos + g) (acc + 2 ^ (pos + g - 1)) gs excs := by
  rw [MAX_NORMAL_VALUE_eq] at h7
  simp [decodeOne, h0, MAX_NORMAL_VALUE_eq, h7]

theorem decodeOne_encode :
    ∀ (ps : List Nat) (last acc : Nat), List.Chain (· < ·) last ps →
      ∀ (restNs restEs : List Nat),
      decodeOne last acc
        ((gapsFrom last ps).map Prod.fst ++ 0 :: restNs)
        ((gapsFrom last ps).filterMap Prod.snd ++ restEs)
      = some (acc + ((ps.map (fun p => 2 ^ (p - 1))).sum), restNs, restEs) := by
  intro ps
  induction ps with
  | nil =>
    intro last acc _ restNs restEs
    simp [gapsFrom, decodeOne_cons_zero]
  | cons p ps ih =>
    intro last acc hchain restNs restEs
    obtain ⟨hlt, hchain'⟩ := List.chain_cons.mp hchain
    have h7 := MAX_NORMAL_VALUE_eq
    by_cases hg : p - last ≥ MAX_NORMAL_VALUE
    · have hgap : gapsFrom last (p :: ps)
          = (MAX_NORMAL_VALUE, some (p - last - MAX_NORMAL_VALUE)) :: gapsFrom p ps := by
        simp [gapsFrom, hg]
      rw [hgap]
      simp only [List.map_cons, List.filterMap_cons, List.cons_append]
      rw [decodeOne_cons_max]
      have hpos : last + MAX_NORMAL_VALUE + (p - last - MAX_NORMAL_VALUE) = p := by omega
      rw [hpos, ih p _ hchain' restNs restEs]
      simp only [List.map_cons, List.sum_cons, Option.some.injEq, Prod.mk.injEq]
      exact ⟨by omega, trivial⟩
    · have hgap : gapsFrom last (p :: ps) = (p - last, none) :: gapsFrom p ps := by
        simp [gapsFrom, hg]
      rw [hgap]
      simp only [List.map_cons, List.filterMap_cons, List.cons_append]
      rw [decodeOne_cons_small last acc (p - last) (by omega) (by omega)]
      have hpos : last + (p - last) = p := by omega
      rw [hpos, ih p _ hchain' restNs restEs]
      simp only [List.map_cons, List.sum_cons, Option.some.injEq, Prod.mk.injEq]
      exact ⟨by omega, trivial⟩

theorem decodeDeltas_encode :
    ∀ (ds : List Nat), (∀ d ∈ ds, d < 2 ^ 32) →
      ∀ (padNs padEs : List Nat),
      decodeDeltas ds.length
        ((ds.flatMap compressSubfingerprint).map Prod.fst ++ padNs)
        ((ds.flatMap compressSubfingerprint).filterMap Prod.snd ++ padEs)
      = some ds := by
  intro ds
  induction ds with
  | nil => intro _ padNs padEs; simp [decodeDeltas]
  | cons d ds ih =>
    intro hds padNs padEs
    have hd : d < 2 ^ 32 := hds d (List.mem_cons_self d ds)
    have hone : decodeOne 0 0
        (((d :: ds).flatMap compressSubfingerprint).map Prod.fst ++ padNs)
        (((d :: ds).flatMap compressSubfingerprint).filterMap Prod.snd ++ padEs)
        = some (d, (ds.flatMap compressSubfingerprint).map Prod.fst ++ padNs,
                   (ds.flatMap compressSubfingerprint).filterMap Prod.snd ++ padEs) := by
      simp only [List.flatMap_cons, List.map_append, List.filterMap_append,
        compressSubfingerprint, List.map_cons, List.filterMap_cons, List.map_nil,
        List.filterMap_nil, List.append_assoc, List.singleton_append, List.append_nil,
        List.nil_append, List.cons_append]
      rw [decodeOne_encode (setBitPositions d) 0 0 (setBitPositions_chain d),
        positions_sum d hd]
      simp
    simp only [List.length_cons]
    rw [decodeDeltas, hone]
    simp only [Option.some_bind]
    rw [ih (fun x hx => hds x (List.mem_cons_of_mem d hx))]
    rfl

end Compression

namespace Compression

theorem findNormalEnd_zero (l : List Nat) : findNormalEnd l 0 = some 0 := by
  cases l <;> rfl

theorem findNormalEnd_group (gs : List Nat) (hgs : ∀ g ∈ gs, g ≠ 0) :
    ∀ (rest : List Nat) (k : Nat),
      findNormalEnd (gs ++ 0 :: rest) (k + 1)
        = (findNormalEnd rest k).map (· + (gs.length + 1)) := by
  induction gs with
  | nil =>
    intro rest k
    simp [findNormalEnd]
  | cons g gs ih =>
    intro rest k
    have hg : g ≠ 0 := hgs g (List.mem_cons_self g gs)
    simp only [List.cons_append, findNormalEnd, if_neg hg, List.append_eq]
    rw [ih (fun x hx => hgs x (List.mem_cons_of_mem g hx)) rest k, Option.map_map]
    refine congrArg (fun f => Option.map f (findNormalEnd rest k)) ?_
    funext x
    simp only [Function.comp_apply, List.length_cons]
    omega

theorem findNormalEnd_encode :
    ∀ (ds : List Nat) (tail : List Nat),
      findNormalEnd ((ds.flatMap compressSubfingerprint).map Prod.fst ++ tail) ds.length
        = some ((ds.flatMap compressSubfingerprint).map Prod.fst).length := by
  intro ds
  induction ds with
  | nil =>
    intro tail
    simp only [List.flatMap_nil, List.map_nil, List.nil_append, List.length_nil]
    exact findNormalEnd_zero tail
  | cons d ds ih =>
    intro tail
    have hsplit : ((d :: ds).flatMap compressSubfingerprint).map Prod.fst ++ tail
        = (gapsFrom 0 (setBitPositions d)).map Prod.fst
          ++ 0 :: ((ds.flatMap compressSubfingerprint).map Prod.fst ++ tail) := by
      simp [compressSubfingerprint]
    rw [hsplit, List.length_cons,
      findNormalEnd_group _ (fun g hg => by
        simp only [List.mem_map] at hg
        obtain ⟨pr, hpr, rfl⟩ := hg
        have := gapsFrom_fst_bounds (setBitPositions d) 0 (setBitPositions_chain d) pr hpr
        omega) _ _,
      ih tail]
    simp only [Option.map_some', Option.some.injEq]
    simp [compressSubfingerprint]
    omega

theorem xorDeltas_length (last : Nat) : ∀ xs : List Nat, (xorDeltas last xs).length = xs.length := by
  intro xs
  induction xs generalizing last with
  | nil => rfl
  | cons x xs ih => simp only [xorDeltas, List.length_cons, ih x]

theorem xorDeltas_lt (last : Nat) (xs : List Nat) :
    last < 2 ^ 32 → (∀ x ∈ xs, x < 2 ^ 32) → ∀ d ∈ xorDeltas last xs, d < 2 ^ 32 := by
  induction xs generalizing last with
  | nil => intro _ _ d hd; simp [xorDeltas] at hd
  | cons x xs ih =>
    intro hlast hxs d hd
    simp only [xorDeltas, List.mem_cons] at hd
    rcases hd with rfl | hd
    · exact Nat.xor_lt_two_pow (hxs x (List.mem_cons_self x xs)) hlast
    · exact ih x (hxs x (List.mem_cons_self x xs))
        (fun y hy => hxs y (List.mem_cons_of_mem x hy)) d hd

theorem unXor_xorDeltas (last : Nat) : ∀ xs : List Nat, unXor last (xorDeltas last xs) = xs := by
  intro xs
  induction xs generalizing last with
  | nil => rfl
  | cons x xs ih =>
    simp only [xorDeltas, unXor, Nat.xor_cancel_right, ih x]

theorem normalStream_lt (ds : List Nat) :
    ∀ v ∈ (ds.flatMap compressSubfingerprint).map Prod.fst, v < 2 ^ 3 := by
  intro v hv
  simp only [List.mem_map, List.mem_flatMap] at hv
  obtain ⟨pr, ⟨d, _, hpr⟩, rfl⟩ := hv
  exact compressSubfingerprint_fst_le d _ (List.mem_map_of_mem Prod.fst hpr)

theorem excStream_lt (ds : List Nat) :
    ∀ e ∈ (ds.flatMap compressSubfingerprint).filterMap Prod.snd, e < 2 ^ 5 := by
  intro e he
  simp only [List.mem_filterMap, List.mem_flatMap] at he
  obtain ⟨pr, ⟨d, _, hpr⟩, hsnd⟩ := he
  exact compressSubfingerprint_snd_lt d e (List.mem_filterMap.mpr ⟨pr, hpr, hsnd⟩)

theorem take_eq_of_getD (l1 l2 : List Nat) (k : Nat) (hk : k ≤ l1.length)
    (hlen : l2.length = k)
    (h : ∀ i, i < k → l1.getD i 0 = l2.getD i 0) :
    l1.take k = l2 := by
  apply List.ext_getElem
  · rw [List.length_take]; omega
  · intro i h1 h2
    have hi : i < k := by rw [List.length_take] at h1; omega
    have hgd := h i hi
    rw [List.getD_eq_getElem l1 0 (by omega), List.getD_eq_getElem l2 0 (by omega)] at hgd
    simpa [List.getElem_take] using hgd

theorem header_roundtrip (size : Nat) (h : size < 2 ^ 24) :
    ((((size >>> 16) &&& 0xFF) <<< 16) + (((size >>> 8) &&& 0xFF) <<< 8)) + (size &&& 0xFF)
      = size := by
  have h255 : (0xFF : Nat) = 2 ^ 8 - 1 := by norm_num
  rw [h255, Nat.and_pow_two_sub_one_eq_mod, Nat.and_pow_two_sub_one_eq_mod,
    Nat.and_pow_two_sub_one_eq_mod, Nat.shiftRight_eq_div_pow, Nat.shiftRight_eq_div_pow,
    Nat.shiftLeft_eq, Nat.shiftLeft_eq]
  have h16 : (2:Nat) ^ 16 = 65536 := by norm_num
  have h8 : (2:Nat) ^ 8 = 256 := by norm_num
  have h24 : (2:Nat) ^ 24 = 16777216 := by norm_num
  rw [h16, h8] at *
  omega

end Compression

namespace Compression

theorem getD_mem_lt (l : List Nat) (i : Nat) (hi : i < l.length) (B : Nat)
    (h : ∀ x ∈ l, x < B) : l.getD i 0 < B := by
  rw [List.getD_eq_getElem l 0 hi]
  exact h _ (List.getElem_mem hi)

theorem compress_shape (algo : Nat) (fp : List Nat) :
    compress algo fp
      = algo :: ((fp.length >>> 16) &&& 0xFF) :: ((fp.length >>> 8) &&& 0xFF)
        :: (fp.length &&& 0xFF)
        :: (iterPackedIntnArray 3
            (((xorDeltas 0 fp).flatMap compressSubfingerprint).map Prod.fst)
          ++ iterPackedIntnArray 5
            (((xorDeltas 0 fp).flatMap compressSubfingerprint).filterMap Prod.snd)) := by
  simp [compress, List.append_assoc]

/-- C1 (amended). Compression round-trip: for every fingerprint of fewer
than `2^24` sub-fingerprints, all below `2^32`, decompressing the byte
stream produced by `compress` recovers the algorithm id and the exact
fingerprint.  The length bound is forced by the 24-bit size field of the
header; the repository has no decompressor, so `decompress` is modelled
from the spec (see its doc comment). -/
theorem c1_compress_roundtrip (algorithmId : Nat) (fp : List Nat)
    (hlen : fp.length < 2 ^ 24) (hfp : ∀ x ∈ fp, x < 2 ^ 32) :
    decompress (compress algorithmId fp) = some (algorithmId, fp) := by
  have hds_lt : ∀ d ∈ xorDeltas 0 fp, d < 2 ^ 32 :=
    xorDeltas_lt 0 fp (by norm_num) hfp
  have hds_len : (xorDeltas 0 fp).length = fp.length := xorDeltas_length 0 fp
  have hNSlt := normalStream_lt (xorDeltas 0 fp)
  have hESlt := excStream_lt (xorDeltas 0 fp)
  have hpackN := iterPacked_length 3 (by norm_num) (by norm_num)
    (((xorDeltas 0 fp).flatMap compressSubfingerprint).map Prod.fst).length
    (((xorDeltas 0 fp).flatMap compressSubfingerprint).map Prod.fst) le_rfl
  have hpackE := iterPacked_length 5 (by norm_num) (by norm_num)
    (((xorDeltas 0 fp).flatMap compressSubfingerprint).filterMap Prod.snd).length
    (((xorDeltas 0 fp).flatMap compressSubfingerprint).filterMap Prod.snd) le_rfl
  -- abbreviations (plain terms, kept explicit below)
  have hvals_len : (unpackIntN 3
      (iterPackedIntnArray 3 (((xorDeltas 0 fp).flatMap compressSubfingerprint).map Prod.fst)
        ++ iterPackedIntnArray 5
          (((xorDeltas 0 fp).flatMap compressSubfingerprint).filterMap Prod.snd))).length
      = (iterPackedIntnArray 3
          (((xorDeltas 0 fp).flatMap compressSubfingerprint).map Prod.fst)).length * 8 / 3
        + ((iterPackedIntnArray 5
          (((xorDeltas 0 fp).flatMap compressSubfingerprint).filterMap Prod.snd)).length * 8
          + (iterPackedIntnArray 3
            (((xorDeltas 0 fp).flatMap compressSubfingerprint).map Prod.fst)).length * 8 % 3)
          / 3 := by
    simp only [unpackIntN, List.length_map, List.length_range, List.length_append]
    omega
  have hvals_ge : (((xorDeltas 0 fp).flatMap compressSubfingerprint).map Prod.fst).length
      ≤ (unpackIntN 3
        (iterPackedIntnArray 3 (((xorDeltas 0 fp).flatMap compressSubfingerprint).map Prod.fst)
          ++ iterPackedIntnArray 5
            (((xorDeltas 0 fp).flatMap compressSubfingerprint).filterMap Prod.snd))).length := by
    rw [hvals_len, hpackN]
    omega
  have htake : (unpackIntN 3
      (iterPackedIntnArray 3 (((xorDeltas 0 fp).flatMap compressSubfingerprint).map Prod.fst)
        ++ iterPackedIntnArray 5
          (((xorDeltas 0 fp).flatMap compressSubfingerprint).filterMap Prod.snd))).take
        (((xorDeltas 0 fp).flatMap compressSubfingerprint).map Prod.fst).length
      = ((xorDeltas 0 fp).flatMap compressSubfingerprint).map Prod.fst := by
    apply take_eq_of_getD _ _ _ hvals_ge rfl
    intro i hi
    exact unpack_pack 3 (by norm_num) (by norm_num) _ _ i hi
      (getD_mem_lt _ i hi _ hNSlt)
  have hexcs_len : (unpackIntN 5
      (iterPackedIntnArray 5
        (((xorDeltas 0 fp).flatMap compressSubfingerprint).filterMap Prod.snd))).length
      = (iterPackedIntnArray 5
        (((xorDeltas 0 fp).flatMap compressSubfingerprint).filterMap Prod.snd)).length * 8 / 5 := by
    simp only [unpackIntN, List.length_map, List.length_range]
  have hexcs_ge : (((xorDeltas 0 fp).flatMap compressSubfingerprint).filterMap Prod.snd).length
      ≤ (unpackIntN 5
        (iterPackedIntnArray 5
          (((xorDeltas 0 fp).flatMap compressSubfingerprint).filterMap Prod.snd))).length := by
    rw [hexcs_len, hpackE]
    omega
  have htakeE : (unpackIntN 5
      (iterPackedIntnArray 5
        (((xorDeltas 0 fp).flatMap compressSubfingerprint).filterMap Prod.snd))).take
        (((xorDeltas 0 fp).flatMap compressSubfingerprint).filterMap Prod.snd).length
      = ((xorDeltas 0 fp).flatMap compressSubfingerprint).filterMap Prod.snd := by
    apply take_eq_of_getD _ _ _ hexcs_ge rfl
    intro i hi
    have h5 := unpack_pack 5 (by norm_num) (by norm_num)
      (((xorDeltas 0 fp).flatMap compressSubfingerprint).filterMap Prod.snd) [] i hi
      (getD_mem_lt _ i hi _ hESlt)
    rwa [List.append_nil] at h5
  have hexcs_split : unpackIntN 5
      (iterPackedIntnArray 5
        (((xorDeltas 0 fp).flatMap compressSubfingerprint).filterMap Prod.snd))
      = ((xorDeltas 0 fp).flatMap compressSubfingerprint).filterMap Prod.snd
        ++ (unpackIntN 5
          (iterPackedIntnArray 5
            (((xorDeltas 0 fp).flatMap compressSubfingerprint).filterMap Prod.snd))).drop
          (((xorDeltas 0 fp).flatMap compressSubfingerprint).filterMap Prod.snd).length := by
    have h := (List.take_append_drop
      (((xorDeltas 0 fp).flatMap compressSubfingerprint).filterMap Prod.snd).length
      (unpackIntN 5
        (iterPackedIntnArray 5
          (((xorDeltas 0 fp).flatMap compressSubfingerprint).filterMap Prod.snd)))).symm
    rwa [htakeE] at h
  have hvals_split : unpackIntN 3
      (iterPackedIntnArray 3 (((xorDeltas 0 fp).flatMap compressSubfingerprint).map Prod.fst)
        ++ iterPackedIntnArray 5
          (((xorDeltas 0 fp).flatMap compressSubfingerprint).filterMap Prod.snd))
      = ((xorDeltas 0 fp).flatMap compressSubfingerprint).map Prod.fst
        ++ (unpackIntN 3
          (iterPackedIntnArray 3 (((xorDeltas 0 fp).flatMap compressSubfingerprint).map Prod.fst)
            ++ iterPackedIntnArray 5
              (((xorDeltas 0 fp).flatMap compressSubfingerprint).filterMap Prod.snd))).drop
          (((xorDeltas 0 fp).flatMap compressSubfingerprint).map Prod.fst).length := by
    have h := (List.take_append_drop
      (((xorDeltas 0 fp).flatMap compressSubfingerprint).map Prod.fst).length
      (unpackIntN 3
        (iterPackedIntnArray 3 (((xorDeltas 0 fp).flatMap compressSubfingerprint).map Prod.fst)
          ++ iterPackedIntnArray 5
            (((xorDeltas 0 fp).flatMap compressSubfingerprint).filterMap Prod.snd)))).symm
    rwa [htake] at h
  have hfind : findNormalEnd
      (unpackIntN 3
        (iterPackedIntnArray 3 (((xorDeltas 0 fp).flatMap compressSubfingerprint).map Prod.fst)
          ++ iterPackedIntnArray 5
            (((xorDeltas 0 fp).flatMap compressSubfingerprint).filterMap Prod.snd)))
      fp.length
      = some (((xorDeltas 0 fp).flatMap compressSubfingerprint).map Prod.fst).length := by
    rw [hvals_split, ← hds_len]
    exact findNormalEnd_encode (xorDeltas 0 fp) _
  have hdrop : (iterPackedIntnArray 3
        (((xorDeltas 0 fp).flatMap compressSubfingerprint).map Prod.fst)
      ++ iterPackedIntnArray 5
        (((xorDeltas 0 fp).flatMap compressSubfingerprint).filterMap Prod.snd)).drop
      (packedIntnArrayLen
        (((xorDeltas 0 fp).flatMap compressSubfingerprint).map Prod.fst).length 3)
      = iterPackedIntnArray 5
        (((xorDeltas 0 fp).flatMap compressSubfingerprint).filterMap Prod.snd) := by
    have hplen : packedIntnArrayLen
        (((xorDeltas 0 fp).flatMap compressSubfingerprint).map Prod.fst).length 3
        = (iterPackedIntnArray 3
          (((xorDeltas 0 fp).flatMap compressSubfingerprint).map Prod.fst)).length := by
      rw [hpackN]; rfl
    rw [hplen, List.drop_left]
  have hdec : decodeDeltas fp.length
      (((xorDeltas 0 fp).flatMap compressSubfingerprint).map Prod.fst)
      (unpackIntN 5
        (iterPackedIntnArray 5
          (((xorDeltas 0 fp).flatMap compressSubfingerprint).filterMap Prod.snd)))
      = some (xorDeltas 0 fp) := by
    have h := decodeDeltas_encode (xorDeltas 0 fp) hds_lt []
      ((unpackIntN 5
        (iterPackedIntnArray 5
          (((xorDeltas 0 fp).flatMap compressSubfingerprint).filterMap Prod.snd))).drop
        (((xorDeltas 0 fp).flatMap compressSubfingerprint).filterMap Prod.snd).length)
    rw [List.append_nil, hds_len, ← hexcs_split] at h
    exact h
  have hsize := header_roundtrip fp.length hlen
  rw [compress_shape algorithmId fp]
  show (findNormalEnd
      (unpackIntN 3
        (iterPackedIntnArray 3 (((xorDeltas 0 fp).flatMap compressSubfingerprint).map Prod.fst)
          ++ iterPackedIntnArray 5
            (((xorDeltas 0 fp).flatMap compressSubfingerprint).filterMap Prod.snd)))
      ((((fp.length >>> 16) &&& 0xFF) <<< 16) + (((fp.length >>> 8) &&& 0xFF) <<< 8)
        + (fp.length &&& 0xFF))).bind _ = _
  rw [hsize, hfind, Option.some_bind]
  show (decodeDeltas fp.length _ _).map _ = _
  rw [htake, hdrop, hdec, Option.map_some', unXor_xorDeltas]

end Compression

namespace Compression

/-- Counterexample to C1 as stated: a fingerprint of `2^24` zero
sub-fingerprints does not round-trip, because its length is truncated to
`0` in the 24-bit header, so the decoder stops after the header and
returns the empty fingerprint. -/
theorem c1_counterexample :
    decompress (compress 1 (List.replicate (2 ^ 24) 0))
      ≠ some (1, List.replicate (2 ^ 24) 0) := by
  have e1 : ((2 ^ 24 : Nat) >>> 16) &&& 0xFF = 0 := by decide
  have e2 : ((2 ^ 24 : Nat) >>> 8) &&& 0xFF = 0 := by decide
  have e3 : (2 ^ 24 : Nat) &&& 0xFF = 0 := by decide
  have hcomp := compress_shape 1 (List.replicate (2 ^ 24) 0)
  rw [List.length_replicate, e1, e2, e3] at hcomp
  rw [hcomp]
  have hdecomp : decompress (1 :: 0 :: 0 :: 0
      :: (iterPackedIntnArray 3
          (((xorDeltas 0 (List.replicate (2 ^ 24) 0)).flatMap
            compressSubfingerprint).map Prod.fst)
        ++ iterPackedIntnArray 5
          (((xorDeltas 0 (List.replicate (2 ^ 24) 0)).flatMap
            compressSubfingerprint).filterMap Prod.snd)))
      = some (1, []) := by
    show (findNormalEnd _ ((0 <<< 16) + (0 <<< 8) + 0)).bind _ = _
    have h0 : ((0 <<< 16) + (0 <<< 8) + 0 : Nat) = 0 := by norm_num
    rw [h0, findNormalEnd_zero, Option.some_bind]
    show (decodeDeltas 0 _ _).map _ = _
    rw [decodeDeltas]
    rfl
  rw [hdecomp]
  intro h
  simp only [Option.some.injEq, Prod.mk.injEq] at h
  have hlen := congrArg List.length h.2
  simp only [List.length_nil, List.length_replicate] at hlen
  exact absurd hlen.symm (by norm_num)

/-- Witness for C1 at the one-element fingerprint `[5]`. -/
theorem c1_compress_roundtrip_witness :
    (([5].length < 2 ^ 24 ∧ ∀ x ∈ [5], x < 2 ^ 32) ∧
      decompress (compress 1 [5]) = some (1, [5])) :=
  ⟨⟨by norm_num, by decide⟩, c1_compress_roundtrip 1 [5] (by norm_num) (by decide)⟩

end Compression

namespace Compression

theorem xorDeltas_eq_zipWith :
    ∀ (xs : List Nat) (last : Nat), xorDeltas last xs = List.zipWith (· ^^^ ·) xs (last :: xs) := by
  intro xs
  induction xs with
  | nil => intro last; rfl
  | cons x xs ih => intro last; simp only [xorDeltas, List.zipWith_cons_cons, ih x]

theorem xorDeltas_eq_specDeltas (fp : List Nat) : xorDeltas 0 fp = specDeltas fp :=
  xorDeltas_eq_zipWith fp 0

theorem gapsFrom_eq_map_specEncodeGap :
    ∀ (ps : List Nat) (last : Nat),
      gapsFrom last ps = (List.zipWith (· - ·) ps (last :: ps)).map specEncodeGap := by
  intro ps
  induction ps with
  | nil => intro last; rfl
  | cons p ps ih =>
    intro last
    simp only [gapsFrom, List.zipWith_cons_cons, List.map_cons, ih p]
    congr 1
    have h7 := MAX_NORMAL_VALUE_eq
    unfold specEncodeGap
    split_ifs with h1 h2 h3
    · exfalso; omega
    · rfl
    · simp [h7]
    · exfalso; omega

theorem compressSubfingerprint_eq_spec (d : Nat) :
    compressSubfingerprint d = (specGaps d).map specEncodeGap := by
  unfold compressSubfingerprint specGaps
  rw [List.map_append, gapsFrom_eq_map_specEncodeGap]
  rfl

theorem pairs_eq_specPairs (fp : List Nat) :
    (xorDeltas 0 fp).flatMap compressSubfingerprint = specPairs fp := by
  rw [xorDeltas_eq_specDeltas]
  unfold specPairs
  congr 1
  funext d
  exact compressSubfingerprint_eq_spec d

/-- C5. The compressed stream equals the spec's wording of the format: a
4-byte header (algorithm id, then the length as a 24-bit big-endian
count), the 3-bit-packed normal stream and the 5-bit-packed exceptional
stream derived from the XOR-deltas via set-bit-position gaps with
terminating zeros and the `7`/`g−7` exceptional split; and the total
length is `4 + ⌈3N/8⌉ + ⌈5E/8⌉` bytes. -/
theorem c5_compress_format (algorithmId : Nat) (fp : List Nat) :
    compress algorithmId fp = specCompressed algorithmId fp
      ∧ (compress algorithmId fp).length
          = 4 + ((specNormalStream fp).length * 3 + 7) / 8
              + ((specExceptionalStream fp).length * 5 + 7) / 8 := by
  have h255 : (0xFF : Nat) = 2 ^ 8 - 1 := by norm_num
  have hb1 : (fp.length >>> 16) &&& 0xFF = fp.length / 2 ^ 16 % 2 ^ 8 := by
    rw [Nat.shiftRight_eq_div_pow, h255, Nat.and_pow_two_sub_one_eq_mod]
  have hb2 : (fp.length >>> 8) &&& 0xFF = fp.length / 2 ^ 8 % 2 ^ 8 := by
    rw [Nat.shiftRight_eq_div_pow, h255, Nat.and_pow_two_sub_one_eq_mod]
  have hb3 : fp.length &&& 0xFF = fp.length % 2 ^ 8 := by
    rw [h255, Nat.and_pow_two_sub_one_eq_mod]
  have hmain : compress algorithmId fp = specCompressed algorithmId fp := by
    rw [compress_shape, specCompressed, hb1, hb2, hb3, specNormalStream,
      specExceptionalStream, ← pairs_eq_specPairs]
    simp [List.append_assoc]
  refine ⟨hmain, ?_⟩
  rw [hmain, specCompressed]
  simp only [List.length_append, List.length_cons, List.length_nil]
  rw [iterPacked_length 3 (by norm_num) (by norm_num) (specNormalStream fp).length
      (specNormalStream fp) le_rfl,
    iterPacked_length 5 (by norm_num) (by norm_num) (specExceptionalStream fp).length
      (specExceptionalStream fp) le_rfl]

end Compression

namespace RollingImage

theorem sum_map_sub (l : List (List ℚ)) (f g : List ℚ → ℚ) :
    (l.map (fun x => f x - g x)).sum = (l.map f).sum - (l.map g).sum := by
  induction l with
  | nil => simp
  | cons a l ih => simp [ih]; ring

theorem rowSlice_split (row : List ℚ) (c1 c2 : Nat) (hc : c1 ≤ c2) :
    rowSlice row c1 c2 = rowSlice row 0 c2 - rowSlice row 0 c1 := by
  unfold rowSlice
  rw [List.drop_zero, List.drop_zero]
  have hsplit := List.take_append_drop c1 (row.take c2)
  have htt : (row.take c2).take c1 = row.take c1 := by
    rw [List.take_take, min_eq_left hc]
  have hsum := congrArg List.sum hsplit
  rw [List.sum_append, htt] at hsum
  linarith [hsum]

theorem rectSum_col_split (rs : List (List ℚ)) (r1 c1 r2 c2 : Nat) (hc : c1 ≤ c2) :
    rectSum rs r1 c1 r2 c2 = rectSum rs r1 0 r2 c2 - rectSum rs r1 0 r2 c1 := by
  unfold rectSum
  rw [← sum_map_sub]
  congr 1
  apply List.map_congr_left
  intro row _
  exact rowSlice_split row c1 c2 hc

theorem rectSum_row_split (rs : List (List ℚ)) (r1 r2 c : Nat) (hr : r1 ≤ r2) :
    rectSum rs r1 0 r2 c = rectSum rs 0 0 r2 c - rectSum rs 0 0 r1 c := by
  unfold rectSum
  rw [List.drop_zero, List.drop_zero]
  have hsplit := List.take_append_drop r1 (rs.take r2)
  have htt : (rs.take r2).take r1 = rs.take r1 := by
    rw [List.take_take, min_eq_left hr]
  have hsum := congrArg (fun l => (l.map (fun row => rowSlice row 0 c)).sum) hsplit
  simp only [List.map_append, List.sum_append, htt] at hsum
  linarith [hsum]

theorem rectSum_eq_corners (rs : List (List ℚ)) (r1 c1 r2 c2 : Nat)
    (hr : r1 ≤ r2) (hc : c1 ≤ c2) :
    rectSum rs r1 c1 r2 c2
      = rectSum rs 0 0 r2 c2 - rectSum rs 0 0 r1 c2
        - rectSum rs 0 0 r2 c1 + rectSum rs 0 0 r1 c1 := by
  rw [rectSum_col_split rs r1 c1 r2 c2 hc, rectSum_row_split rs r1 r2 c2 hr,
    rectSum_row_split rs r1 r2 c1 hr]
  ring

theorem rectSum_row_zero (rs : List (List ℚ)) (c : Nat) : rectSum rs 0 0 0 c = 0 := by
  simp [rectSum]

theorem rectSum_col_zero (rs : List (List ℚ)) (r : Nat) : rectSum rs 0 0 r 0 = 0 := by
  unfold rectSum
  rw [List.drop_zero]
  have : (rs.take r).map (fun row => rowSlice row 0 0) = (rs.take r).map (fun _ => (0:ℚ)) := by
    apply List.map_congr_left
    intro row _
    simp [rowSlice]
  rw [this]
  simp

theorem rectSum_append_left (rs l2 : List (List ℚ)) (r c : Nat) (hr : r ≤ rs.length) :
    rectSum (rs ++ l2) 0 0 r c = rectSum rs 0 0 r c := by
  unfold rectSum
  rw [List.take_append_of_le_length hr]

theorem rectSum_append_last (rs : List (List ℚ)) (row : List ℚ) (c : Nat) :
    rectSum (rs ++ [row]) 0 0 (rs.length + 1) c
      = rectSum rs 0 0 rs.length c + rowSlice row 0 c := by
  unfold rectSum
  rw [List.drop_zero, List.drop_zero, List.take_of_length_le (by simp),
    List.take_length, List.map_append, List.sum_append]
  simp

theorem slot_disjoint (u v C i : Nat) (huv : u ≠ v) (hi : i < C) :
    ¬ (v * C ≤ u * C + i ∧ u * C + i < v * C + C) := by
  rcases Nat.lt_or_ge u v with h | h
  · rintro ⟨h1, _⟩
    have hle : (u + 1) * C ≤ v * C := Nat.mul_le_mul_right C h
    have heq : (u + 1) * C = u * C + C := by ring
    omega
  · have hvu : v < u := lt_of_le_of_ne h (Ne.symm huv)
    rintro ⟨_, h2⟩
    have hle : (v + 1) * C ≤ u * C := Nat.mul_le_mul_right C hvu
    have heq : (v + 1) * C = v * C + C := by ring
    omega

theorem mod_ne_of_lt_of_le (a b M : Nat) (hab : a < b) (hM : b < a + M) :
    a % M ≠ b % M := by
  intro h
  have hM0 : 0 < M := by omega
  have hxa : a % M < M := Nat.mod_lt a hM0
  have hd : b - a < M := by omega
  have hb : b = a + (b - a) := by omega
  rw [hb, Nat.add_mod, Nat.mod_eq_of_lt hd] at h
  rcases Nat.lt_or_ge (a % M + (b - a)) M with hlt | hge
  · rw [Nat.mod_eq_of_lt hlt] at h
    omega
  · have h2 : (a % M + (b - a)) % M = a % M + (b - a) - M := by
      rw [Nat.mod_eq_sub_mod hge, Nat.mod_eq_of_lt (by omega)]
    rw [h2] at h
    omega

end RollingImage

namespace RollingImage

theorem addRow_maxRows (st : RollState) (row : List ℚ) :
    (addRow st row).maxRows = st.maxRows := rfl

theorem addRow_rows (st : RollState) (row : List ℚ) :
    (addRow st row).rows = st.rows + 1 := rfl

theorem addRow_columns (st : RollState) (row : List ℚ) :
    (addRow st row).columns = if st.columns = 0 then row.length else st.columns := rfl

theorem rollingRun_append (st : RollState) (rs : List (List ℚ)) (row : List ℚ) :
    rollingRun st (rs ++ [row]) = addRow (rollingRun st rs) row := by
  unfold rollingRun
  rw [List.foldl_append]
  rfl

theorem addRow_data_outside (st : RollState) (row : List ℚ) (C j : Nat)
    (hC : (if st.columns = 0 then row.length else st.columns) = C)
    (hj : ¬((st.rows % st.maxRows) * C ≤ j ∧ j < (st.rows % st.maxRows) * C + C)) :
    (addRow st row).data j = st.data j := by
  simp only [addRow, hC]
  by_cases h1 : 0 < st.rows
  · rw [if_pos h1]
    simp only [if_neg hj]
  · rw [if_neg h1]
    simp only [if_neg hj]

theorem addRow_data_first (st : RollState) (row : List ℚ) (C i : Nat)
    (hC : (if st.columns = 0 then row.length else st.columns) = C)
    (h0 : st.rows = 0) (hi : i < C) :
    (addRow st row).data ((st.rows % st.maxRows) * C + i) = (row.take (i + 1)).sum := by
  have hin : (st.rows % st.maxRows) * C ≤ (st.rows % st.maxRows) * C + i
      ∧ (st.rows % st.maxRows) * C + i < (st.rows % st.maxRows) * C + C := by omega
  simp only [addRow, hC]
  rw [if_neg (by omega : ¬ 0 < st.rows)]
  simp only [if_pos hin]
  congr 2
  omega

theorem addRow_data_step (st : RollState) (row : List ℚ) (C i : Nat)
    (hC : (if st.columns = 0 then row.length else st.columns) = C)
    (hrows : 0 < st.rows)
    (hne : (st.rows - 1) % st.maxRows ≠ st.rows % st.maxRows)
    (hi : i < C) :
    (addRow st row).data ((st.rows % st.maxRows) * C + i)
      = (row.take (i + 1)).sum + st.data ((st.rows - 1) % st.maxRows * C + i) := by
  have hin : (st.rows % st.maxRows) * C ≤ (st.rows % st.maxRows) * C + i
      ∧ (st.rows % st.maxRows) * C + i < (st.rows % st.maxRows) * C + C := by omega
  have hsub : (st.rows % st.maxRows) * C + i - (st.rows % st.maxRows) * C = i := by omega
  have hout := slot_disjoint ((st.rows - 1) % st.maxRows) (st.rows % st.maxRows) C i hne hi
  simp only [addRow, hC]
  rw [if_pos hrows]
  simp only [if_pos hin, hsub, if_neg hout]

end RollingImage

namespace RollingImage

theorem rollingRun_inv (M₀ C : Nat) :
    ∀ rs : List (List ℚ), (∀ row ∈ rs, row.length = C) →
      (rollingRun (rollingNew M₀) rs).maxRows = M₀ + 1 ∧
      (rollingRun (rollingNew M₀) rs).rows = rs.length ∧
      (rollingRun (rollingNew M₀) rs).columns = (if rs.length = 0 then 0 else C) ∧
      ((2 ≤ M₀ + 1 ∨ rs.length ≤ 1) →
        ∀ r, r < rs.length → rs.length ≤ r + (M₀ + 1) →
          ∀ i, i < C →
            (rollingRun (rollingNew M₀) rs).data (r % (M₀ + 1) * C + i)
              = rectSum rs 0 0 (r + 1) (i + 1)) := by
  intro rs
  induction rs using List.reverseRecOn with
  | nil =>
    intro _
    refine ⟨rfl, rfl, rfl, ?_⟩
    intro _ r hr _ _ _
    simp at hr
  | append_singleton rs row ih =>
    intro hC
    have hCrs : ∀ r ∈ rs, r.length = C := fun r hr => hC r (List.mem_append_left _ hr)
    have hCrow : row.length = C := hC row (List.mem_append_right _ (List.mem_cons_self _ _))
    obtain ⟨ihM, ihR, ihCol, ihData⟩ := ih hCrs
    rw [rollingRun_append]
    have hcol : (if (rollingRun (rollingNew M₀) rs).columns = 0 then row.length
        else (rollingRun (rollingNew M₀) rs).columns) = C := by
      rw [ihCol]
      by_cases h : rs.length = 0
      · simp [h, hCrow]
      · simp only [if_neg h]
        by_cases hc0 : C = 0
        · simp [hc0, hCrow]
        · rw [if_neg hc0]
    refine ⟨by rw [addRow_maxRows, ihM], by simp [addRow_rows, ihR], ?_, ?_⟩
    · rw [addRow_columns, hcol]
      simp
    · intro hcond r hr hrM i hi
      simp only [List.length_append, List.length_cons, List.length_nil] at hr hrM
      by_cases hlast : r = rs.length
      · subst hlast
        by_cases h0 : rs.length = 0
        · -- first row ever: phase 2 is skipped
          have hrs0 : rs = [] := List.eq_nil_of_length_eq_zero h0
          subst hrs0
          simp only [List.length_nil, List.nil_append]
          have hdz := addRow_data_first (rollingRun (rollingNew M₀) []) row C i hcol rfl hi
          simp only [rollingRun, List.foldl_nil, rollingNew] at hdz ⊢
          rw [Nat.zero_mod] at hdz
          rw [Nat.zero_mod, hdz]
          simp [rectSum, rowSlice]
        · -- a later row: phase 2 adds the stored previous prefix row
          have hk : 0 < rs.length := Nat.pos_of_ne_zero h0
          have hM2 : 2 ≤ M₀ + 1 := by
            rcases hcond with h | h
            · exact h
            · simp only [List.length_append, List.length_cons, List.length_nil] at h
              omega
          have hne : ((rollingRun (rollingNew M₀) rs).rows - 1)
                % (rollingRun (rollingNew M₀) rs).maxRows
              ≠ (rollingRun (rollingNew M₀) rs).rows
                % (rollingRun (rollingNew M₀) rs).maxRows := by
            rw [ihR, ihM]
            exact mod_ne_of_lt_of_le (rs.length - 1) rs.length (M₀ + 1) (by omega) (by omega)
          have hstep := addRow_data_step (rollingRun (rollingNew M₀) rs) row C i hcol
            (by rw [ihR]; omega) hne hi
          rw [ihR, ihM] at hstep
          rw [hstep, ihData (Or.inl hM2) (rs.length - 1) (by omega) (by omega) i hi]
          have hr1 : rs.length - 1 + 1 = rs.length := by omega
          rw [hr1, rectSum_append_last]
          have : rowSlice row 0 (i + 1) = (row.take (i + 1)).sum := by
            simp [rowSlice]
          rw [this]
          ring
      · -- an untouched older row: the slot is outside the write window
        have hrlt : r < rs.length := by omega
        have hM2 : 2 ≤ M₀ + 1 := by omega
        have hout := slot_disjoint (r % (M₀ + 1)) (rs.length % (M₀ + 1)) C i
          (mod_ne_of_lt_of_le r rs.length (M₀ + 1) hrlt (by omega)) hi
        have houtside := addRow_data_outside (rollingRun (rollingNew M₀) rs) row C
          (r % (M₀ + 1) * C + i) hcol (by rw [ihR, ihM]; exact hout)
        rw [houtside, ihData (Or.inl hM2) r hrlt (by omega) i hi,
          rectSum_append_left rs [row] (r + 1) (i + 1) (by omega)]

end RollingImage

namespace RollingImage

/-- C6. Rolling integral image correctness: after feeding any sequence of
equal-length rows through `add_row`, every query satisfying `area`'s
assertions (row indices within `rows()` and — once the buffer has wrapped —
within the last `max_rows` stored rows, column indices within `columns`)
returns exactly the sum of the raw input cells over `[r1..r2) × [c1..c2)`,
despite the circular reuse of the `(max_rows+1)`-row buffer. -/
theorem c6_area_correct (M₀ C : Nat) (rs : List (List ℚ))
    (hC : ∀ row ∈ rs, row.length = C)
    (r1 c1 r2 c2 : Nat)
    (hr12 : r1 ≤ r2)
    (hr2 : r2 ≤ (rollingRun (rollingNew M₀) rs).rows)
    (hwin : (rollingRun (rollingNew M₀) rs).rows > (rollingRun (rollingNew M₀) rs).maxRows →
      (rollingRun (rollingNew M₀) rs).rows - (rollingRun (rollingNew M₀) rs).maxRows < r1)
    (hc12 : c1 ≤ c2)
    (hc2 : c2 ≤ (rollingRun (rollingNew M₀) rs).columns) :
    area (rollingRun (rollingNew M₀) rs) r1 c1 r2 c2 = rectSum rs r1 c1 r2 c2 := by
  obtain ⟨hM, hR, hCol, hData⟩ := rollingRun_inv M₀ C rs hC
  by_cases htriv : r1 = r2 ∨ c1 = c2
  · rw [area, if_pos htriv]
    rcases htriv with h | h
    · subst h
      rw [rectSum_eq_corners rs r1 c1 r1 c2 le_rfl hc12]
      ring
    · subst h
      rw [rectSum_eq_corners rs r1 c1 r2 c1 hr12 le_rfl]
      ring
  · push_neg at htriv
    obtain ⟨hr12', hc12'⟩ := htriv
    have hrlt : r1 < r2 := lt_of_le_of_ne hr12 hr12'
    have hclt : c1 < c2 := lt_of_le_of_ne hc12 hc12'
    rw [hR] at hr2
    rw [hR, hM] at hwin
    rw [hCol] at hc2
    have hkpos : rs.length ≠ 0 := by
      intro h
      rw [if_pos h] at hc2
      omega
    rw [if_neg hkpos] at hc2
    have hwin' : rs.length ≤ M₀ + 1 ∨ rs.length - (M₀ + 1) < r1 := by
      by_cases h : rs.length > M₀ + 1
      · exact Or.inr (hwin h)
      · exact Or.inl (by omega)
    have hcond : 2 ≤ M₀ + 1 ∨ rs.length ≤ 1 := by
      by_cases hm : 1 ≤ M₀
      · exact Or.inl (by omega)
      · right
        by_contra hk2
        rcases hwin' with h | h <;> omega
    have hq2 := hData hcond (r2 - 1) (by omega)
      (by rcases hwin' with h | h <;> omega) (c2 - 1) (by omega)
    have e2 : r2 - 1 + 1 = r2 := by omega
    have ec2 : c2 - 1 + 1 = c2 := by omega
    rw [e2, ec2] at hq2
    rw [area, if_neg (by push_neg; exact ⟨hr12', hc12'⟩), hM, hCol, if_neg hkpos]
    by_cases h10 : r1 = 0
    · rw [if_pos h10]
      subst h10
      by_cases hc10 : c1 = 0
      · rw [if_pos hc10]
        subst hc10
        exact hq2
      · rw [if_neg hc10]
        have hq2c1 := hData hcond (r2 - 1) (by omega)
          (by rcases hwin' with h | h <;> omega) (c1 - 1) (by omega)
        have ec1 : c1 - 1 + 1 = c1 := by omega
        rw [e2, ec1] at hq2c1
        rw [hq2, hq2c1, rectSum_eq_corners rs 0 c1 r2 c2 (by omega) hc12,
          rectSum_row_zero, rectSum_row_zero]
        ring
    · rw [if_neg h10]
      have hq1 := hData hcond (r1 - 1) (by omega)
        (by rcases hwin' with h | h <;> omega) (c2 - 1) (by omega)
      have e1 : r1 - 1 + 1 = r1 := by omega
      rw [e1, ec2] at hq1
      by_cases hc10 : c1 = 0
      · rw [if_pos hc10]
        subst hc10
        rw [hq2, hq1, rectSum_eq_corners rs r1 0 r2 c2 hr12 (by omega),
          rectSum_col_zero, rectSum_col_zero]
        ring
      · rw [if_neg hc10]
        have ec1 : c1 - 1 + 1 = c1 := by omega
        have hq2c1 := hData hcond (r2 - 1) (by omega)
          (by rcases hwin' with h | h <;> omega) (c1 - 1) (by omega)
        rw [e2, ec1] at hq2c1
        have hq1c1 := hData hcond (r1 - 1) (by omega)
          (by rcases hwin' with h | h <;> omega) (c1 - 1) (by omega)
        rw [e1, ec1] at hq1c1
        rw [hq2, hq1, hq2c1, hq1c1, rectSum_eq_corners rs r1 c1 r2 c2 hr12 hc12]

end RollingImage

namespace RollingImage

/-- Witness for C6: a 3-slot buffer (`new(2)`), four 2-column rows (so the
buffer has wrapped), and the query over the last two rows and both
columns. -/
theorem c6_area_correct_witness :
    ((∀ row ∈ [[(1:ℚ), 2], [3, 4], [5, 6], [7, 8]], row.length = 2) ∧
      (2:Nat) ≤ 4 ∧
      4 ≤ (rollingRun (rollingNew 2) [[(1:ℚ), 2], [3, 4], [5, 6], [7, 8]]).rows ∧
      ((rollingRun (rollingNew 2) [[(1:ℚ), 2], [3, 4], [5, 6], [7, 8]]).rows
          > (rollingRun (rollingNew 2) [[(1:ℚ), 2], [3, 4], [5, 6], [7, 8]]).maxRows →
        (rollingRun (rollingNew 2) [[(1:ℚ), 2], [3, 4], [5, 6], [7, 8]]).rows
          - (rollingRun (rollingNew 2) [[(1:ℚ), 2], [3, 4], [5, 6], [7, 8]]).maxRows < 2) ∧
      (0:Nat) ≤ 2 ∧
      2 ≤ (rollingRun (rollingNew 2) [[(1:ℚ), 2], [3, 4], [5, 6], [7, 8]]).columns) ∧
    area (rollingRun (rollingNew 2) [[(1:ℚ), 2], [3, 4], [5, 6], [7, 8]]) 2 0 4 2
      = rectSum [[(1:ℚ), 2], [3, 4], [5, 6], [7, 8]] 2 0 4 2 :=
  ⟨⟨by decide, by decide, by decide, by decide, by decide, by decide⟩,
    c6_area_correct 2 2 [[(1:ℚ), 2], [3, 4], [5, 6], [7, 8]] (by decide) 2 0 4 2
      (by decide) (by decide) (by decide) (by decide) (by decide)⟩

end RollingImage

namespace AudioProcessor

theorem chunksExact_nil (c : Nat) : chunksExact c [] = [] := by
  rw [chunksExact]
  simp

theorem mixStream_nil (c : Nat) : mixStream c [] = [] := by
  rw [mixStream, chunksExact_nil]
  rfl

theorem resampleF_buffer (P : Option (Resampler ρ)) (fl : Bool) (st : ApState ρ) :
    (resampleF P fl st).buffer = [] := by
  cases P <;> rfl

theorem chunksExact_append (c : Nat) (hc : c ≠ 0) :
    ∀ (n : Nat) (a b : List Int), a.length ≤ n → a.length % c = 0 →
      chunksExact c (a ++ b) = chunksExact c a ++ chunksExact c b := by
  intro n
  induction n with
  | zero =>
    intro a b hn _
    have ha : a = [] := List.eq_nil_of_length_eq_zero (by omega)
    subst ha
    rw [chunksExact_nil, List.nil_append, List.nil_append]
  | succ n ih =>
    intro a b hn hmod
    by_cases ha0 : a.length = 0
    · have ha : a = [] := List.eq_nil_of_length_eq_zero ha0
      subst ha
      rw [chunksExact_nil, List.nil_append, List.nil_append]
    · have hca : c ≤ a.length := by
        rcases Nat.lt_or_ge a.length c with h | h
        · rw [Nat.mod_eq_of_lt h] at hmod
          omega
        · exact h
      rw [chunksExact, dif_pos ⟨hc, by rw [List.length_append]; omega⟩]
      rw [List.take_append_of_le_length hca, List.drop_append_of_le_length hca]
      have hdvd : c ∣ a.length := Nat.dvd_of_mod_eq_zero hmod
      have hdvd2 : c ∣ (a.length - c) := Nat.dvd_sub' hdvd dvd_rfl
      rw [ih (a.drop c) b (by rw [List.length_drop]; omega)
        (by rw [List.length_drop]
            exact Nat.mod_eq_zero_of_dvd hdvd2)]
      rw [show chunksExact c a = a.take c :: chunksExact c (a.drop c) from by
        rw [chunksExact, dif_pos ⟨hc, hca⟩]]
      rw [List.cons_append]

end AudioProcessor

namespace AudioProcessor

theorem mixStream_append (c : Nat) (hc : c ≠ 0) (a b : List Int) (hmod : a.length % c = 0) :
    mixStream c (a ++ b) = mixStream c a ++ mixStream c b := by
  unfold mixStream
  rw [chunksExact_append c hc a.length a b le_rfl hmod, List.map_append]

theorem chunksExact_length (c : Nat) (hc : c ≠ 0) :
    ∀ (n : Nat) (l : List Int), l.length ≤ n →
      (chunksExact c l).length = l.length / c := by
  intro n
  induction n with
  | zero =>
    intro l hn
    have : l = [] := List.eq_nil_of_length_eq_zero (by omega)
    subst this
    rw [chunksExact_nil]
    simp
  | succ n ih =>
    intro l hn
    by_cases hcl : c ≤ l.length
    · rw [chunksExact, dif_pos ⟨hc, hcl⟩, List.length_cons,
        ih (l.drop c) (by rw [List.length_drop]; omega), List.length_drop]
      rw [Nat.div_eq_sub_div (Nat.pos_of_ne_zero hc) hcl]
    · rw [chunksExact, dif_neg (by push_neg; intro _; omega), List.length_nil,
        Nat.div_eq_of_lt (by omega)]

theorem mixStream_length (c : Nat) (hc : c ≠ 0) (l : List Int) :
    (mixStream c l).length = l.length / c := by
  rw [mixStream, List.length_map, chunksExact_length c hc l.length l le_rfl]

theorem stepSample_buffer_lt (P : Option (Resampler ρ)) (st : ApState ρ) (s : Int)
    (h : st.buffer.length < MAX_BUFFER_SIZE) :
    (stepSample P st s).buffer.length < MAX_BUFFER_SIZE := by
  unfold stepSample
  simp only []
  split_ifs with hfull
  · rw [resampleF_buffer]
    decide
  · simp only [List.length_append, List.length_cons, List.length_nil] at hfull ⊢
    omega

theorem foldl_stepSample_buffer_lt (P : Option (Resampler ρ)) :
    ∀ (samples : List Int) (st : ApState ρ), st.buffer.length < MAX_BUFFER_SIZE →
      (samples.foldl (stepSample P) st).buffer.length < MAX_BUFFER_SIZE := by
  intro samples
  induction samples with
  | nil => intro st h; exact h
  | cons s samples ih =>
    intro st h
    exact ih (stepSample P st s) (stepSample_buffer_lt P st s h)

theorem foldl_stepSample_push (P : Option (Resampler ρ)) :
    ∀ (samples : List Int) (st : ApState ρ),
      st.buffer.length < MAX_BUFFER_SIZE →
      st.buffer.length + samples.length ≤ MAX_BUFFER_SIZE →
      samples.foldl (stepSample P) st
        = (if st.buffer.length + samples.length = MAX_BUFFER_SIZE
           then resampleF P false { st with buffer := st.buffer ++ samples }
           else { st with buffer := st.buffer ++ samples }) := by
  intro samples
  induction samples with
  | nil =>
    intro st hlt _
    rw [List.foldl_nil, if_neg (by simp only [List.length_nil]; omega)]
    simp
  | cons s samples ih =>
    intro st hlt hle
    rw [List.foldl_cons]
    simp only [List.length_cons] at hle
    by_cases hfull : st.buffer.length + 1 = MAX_BUFFER_SIZE
    · have hs0 : samples = [] := by
        have := List.length_eq_zero.mp (show samples.length = 0 by omega)
        exact this
      subst hs0
      rw [List.foldl_nil]
      unfold stepSample
      rw [if_pos (by simp only [List.length_append, List.length_cons, List.length_nil]; omega)]
      rw [if_pos (by simp only [List.length_cons, List.length_nil]; omega)]
    · have hstep : stepSample P st s = { st with buffer := st.buffer ++ [s] } := by
        unfold stepSample
        rw [if_neg (by simp only [List.length_append, List.length_cons, List.length_nil]; omega)]
      rw [hstep, ih _ (by simp only [List.length_append, List.length_cons, List.length_nil]; omega)
        (by simp only [List.length_append, List.length_cons, List.length_nil]; omega)]
      simp only [List.length_append, List.length_cons, List.length_nil, List.append_assoc,
        List.singleton_append]
      have harith : st.buffer.length + 1 + samples.length
          = st.buffer.length + (samples.length + 1) := by omega
      rw [harith]

end AudioProcessor

namespace AudioProcessor

theorem apConsume_eq_foldl (P : Option (Resampler ρ)) (c : Nat) (hc : c ≠ 0) :
    ∀ (n : Nat) (data : List Int), data.length ≤ n →
      ∀ st : ApState ρ, data.length % c = 0 → st.buffer.length < MAX_BUFFER_SIZE →
        apConsume P c st data = (mixStream c data).foldl (stepSample P) st := by
  intro n
  induction n with
  | zero =>
    intro data hn st _ _
    have hd : data = [] := List.eq_nil_of_length_eq_zero (by omega)
    subst hd
    rw [apConsume]
    simp [mixStream_nil]
  | succ n ih =>
    intro data hn st hmod hbuf
    by_cases h0 : data.length = 0
    · have hd : data = [] := List.eq_nil_of_length_eq_zero h0
      subst hd
      rw [apConsume]
      simp [mixStream_nil]
    · have hcd : c ≤ data.length := by
        rcases Nat.lt_or_ge data.length c with h | h
        · rw [Nat.mod_eq_of_lt h] at hmod
          omega
        · exact h
      have havail : 1 ≤ data.length / c := (Nat.one_le_div_iff (Nat.pos_of_ne_zero hc)).mpr hcd
      have hconsumed : 1 ≤ min (data.length / c) (MAX_BUFFER_SIZE - st.buffer.length) := by
        have : 1 ≤ MAX_BUFFER_SIZE - st.buffer.length := by omega
        omega
      have htakemod : (data.take (min (data.length / c) (MAX_BUFFER_SIZE - st.buffer.length) * c)).length
          = min (data.length / c) (MAX_BUFFER_SIZE - st.buffer.length) * c := by
        rw [List.length_take]
        have hle : min (data.length / c) (MAX_BUFFER_SIZE - st.buffer.length) * c ≤ data.length := by
          calc min (data.length / c) (MAX_BUFFER_SIZE - st.buffer.length) * c
              ≤ (data.length / c) * c := Nat.mul_le_mul_right c (Nat.min_le_left _ _)
            _ ≤ data.length := Nat.div_mul_le_self _ _
        omega
      have hmixlen : (mixStream c (data.take
            (min (data.length / c) (MAX_BUFFER_SIZE - st.buffer.length) * c))).length
          = min (data.length / c) (MAX_BUFFER_SIZE - st.buffer.length) := by
        rw [mixStream_length c hc, htakemod, Nat.mul_div_cancel _ (Nat.pos_of_ne_zero hc)]
      rw [apConsume, dif_neg h0, dif_neg (by
        push_neg
        intro hcz
        exact absurd hcz (by omega))]
      -- the recursive call's state equals the foldl over the taken samples
      have hpush := foldl_stepSample_push P
        (mixStream c (data.take (min (data.length / c) (MAX_BUFFER_SIZE - st.buffer.length) * c)))
        st hbuf (by rw [hmixlen]; omega)
      rw [hmixlen] at hpush
      have hmodtail : (data.drop (min (data.length / c) (MAX_BUFFER_SIZE - st.buffer.length) * c)).length % c = 0 := by
        rw [List.length_drop]
        have hdvd : c ∣ data.length := Nat.dvd_of_mod_eq_zero hmod
        have hdvd2 : c ∣ min (data.length / c) (MAX_BUFFER_SIZE - st.buffer.length) * c :=
          dvd_mul_left c _
        exact Nat.mod_eq_zero_of_dvd (Nat.dvd_sub' hdvd hdvd2)
      have hlentail : (data.drop (min (data.length / c) (MAX_BUFFER_SIZE - st.buffer.length) * c)).length ≤ n := by
        rw [List.length_drop]
        have h1 : 1 ≤ min (data.length / c) (MAX_BUFFER_SIZE - st.buffer.length) * c :=
          Nat.one_le_iff_ne_zero.mpr (Nat.mul_ne_zero (by omega) hc)
        omega
      by_cases hfull : st.buffer.length + min (data.length / c) (MAX_BUFFER_SIZE - st.buffer.length)
          = MAX_BUFFER_SIZE
      · rw [if_pos (by
          simp only [List.length_append, hmixlen]
          exact hfull)]
        rw [ih _ hlentail _ hmodtail (by rw [resampleF_buffer]; decide)]
        conv_rhs => rw [show data
            = data.take (min (data.length / c) (MAX_BUFFER_SIZE - st.buffer.length) * c)
              ++ data.drop (min (data.length / c) (MAX_BUFFER_SIZE - st.buffer.length) * c) from
          (List.take_append_drop _ data).symm]
        rw [mixStream_append c hc _ _ (by rw [htakemod]; exact Nat.mul_mod_left _ _),
          List.foldl_append, hpush, if_pos hfull]
      · rw [if_neg (by
          simp only [List.length_append, hmixlen]
          exact hfull)]
        rw [ih _ hlentail _ hmodtail (by
          simp only [List.length_append, hmixlen]
          omega)]
        conv_rhs => rw [show data
            = data.take (min (data.length / c) (MAX_BUFFER_SIZE - st.buffer.length) * c)
              ++ data.drop (min (data.length / c) (MAX_BUFFER_SIZE - st.buffer.length) * c) from
          (List.take_append_drop _ data).symm]
        rw [mixStream_append c hc _ _ (by rw [htakemod]; exact Nat.mul_mod_left _ _),
          List.foldl_append, hpush, if_neg hfull]

end AudioProcessor

namespace AudioProcessor

theorem join_length_mod (c : Nat) :
    ∀ chunks : List (List Int), (∀ ch ∈ chunks, ch.length % c = 0) →
      chunks.flatten.length % c = 0 := by
  intro chunks
  induction chunks with
  | nil => intro _; simp
  | cons ch chunks ih =>
    intro h
    rw [List.flatten_cons, List.length_append, Nat.add_mod,
      h ch (List.mem_cons_self ch chunks), ih (fun x hx => h x (List.mem_cons_of_mem ch hx))]
    simp

theorem foldl_apConsume_eq (P : Option (Resampler ρ)) (c : Nat) (hc : c ≠ 0) :
    ∀ (chunks : List (List Int)) (st : ApState ρ),
      (∀ ch ∈ chunks, ch.length % c = 0) → st.buffer.length < MAX_BUFFER_SIZE →
      chunks.foldl (fun s ch => apConsume P c s ch) st
        = (mixStream c chunks.flatten).foldl (stepSample P) st := by
  intro chunks
  induction chunks with
  | nil =>
    intro st _ _
    rw [List.foldl_nil, List.flatten_nil, mixStream_nil, List.foldl_nil]
  | cons ch chunks ih =>
    intro st hmods hbuf
    have hch := hmods ch (List.mem_cons_self ch chunks)
    rw [List.foldl_cons,
      apConsume_eq_foldl P c hc ch.length ch le_rfl st hch hbuf,
      ih _ (fun x hx => hmods x (List.mem_cons_of_mem ch hx))
        (foldl_stepSample_buffer_lt P _ st hbuf),
      List.flatten_cons, mixStream_append c hc ch chunks.flatten hch, List.foldl_append]

end AudioProcessor

namespace AudioProcessor

/-- C4. Chunk invariance: for any number of channels, any abstract
fixed-input resampler (or none), and any partition of a PCM stream into
whole-frame chunks, feeding the chunks one `consume` call at a time and
then flushing produces exactly the same state — in particular the same
consumer output — as consuming the concatenated stream and flushing.
Both runs equal a per-sample fold, so the slab and resampler see the
identical sample sequence regardless of chunk boundaries. -/
theorem c4_chunk_invariance (ρ : Type) (P : Option (Resampler ρ)) (c : Nat) (hc : c ≠ 0)
    (chunks : List (List Int)) (hchunks : ∀ ch ∈ chunks, ch.length % c = 0) (r0 : ρ) :
    apFlush P (chunks.foldl (fun st ch => apConsume P c st ch) (apNew r0))
      = apFlush P (apConsume P c (apNew r0) chunks.flatten) := by
  have hbuf : (apNew r0 : ApState ρ).buffer.length < MAX_BUFFER_SIZE := by
    simp [apNew]
    decide
  rw [foldl_apConsume_eq P c hc chunks (apNew r0) hchunks hbuf,
    apConsume_eq_foldl P c hc chunks.flatten.length chunks.flatten le_rfl (apNew r0)
      (join_length_mod c chunks hchunks) hbuf]

/-- Witness for C4: mono input split into two one-sample chunks, no
resampler. -/
theorem c4_chunk_invariance_witness :
    ((1:Nat) ≠ 0 ∧ (∀ ch ∈ [[(1:Int)], [2]], ch.length % 1 = 0)) ∧
    apFlush (none : Option (Resampler Unit))
        ([[(1:Int)], [2]].foldl (fun st ch => apConsume none 1 st ch) (apNew ()))
      = apFlush none (apConsume none 1 (apNew ()) [[(1:Int)], [2]].flatten) :=
  ⟨⟨by decide, by decide⟩,
    c4_chunk_invariance Unit none 1 (by decide) [[(1:Int)], [2]] (by decide) ()⟩

end AudioProcessor
